import Mathlib

/-!
Verification development for the unifi-time-machine repository.

The Go sources are shallowly embedded: time instants are integers of unix
seconds, Go strings are Lean strings (the repository only ever handles
ASCII file names, so bytes and characters coincide), and the stateful
assembler is embedded as an explicit state-passing function whose fallible
external steps (ffmpeg invocations, renames) are driven by an oracle.
-/

namespace TimeMachine

/-! ## Go time parsing

`time.Parse` with the layouts `2006-01-02-15-04-05` and `2006-01-02` is
strict: a zero-padded layout component consumes exactly its width in
digits, every component is range-checked (month 1..12, day up to the length
of that month, hour below 24, minute and second below 60), and trailing
text is rejected.  Instants are modelled as unix seconds (Int), using the
standard civil-calendar conversion; `time.Parse` yields a UTC instant.
-/

def digitVal (c : Char) : Option Nat :=
  if '0' ≤ c ∧ c ≤ '9' then some (c.toNat - 48) else none

def readDigits : Nat → List Char → Option (Nat × List Char)
  | 0, cs => some (0, cs)
  | _ + 1, [] => none
  | n + 1, c :: cs =>
    match digitVal c with
    | none => none
    | some d =>
      match readDigits n cs with
      | none => none
      | some (rest, cs') => some (d * 10 ^ n + rest, cs')

def readDash : List Char → Option (List Char)
  | [] => none
  | c :: cs => if c = '-' then some cs else none

/-- Consume a dash followed by exactly n digits. -/
def readDashDigits (n : Nat) (cs : List Char) : Option (Nat × List Char) :=
  match readDash cs with
  | none => none
  | some cs1 => readDigits n cs1

def isLeapYear (y : Nat) : Bool :=
  (y % 4 == 0 && y % 100 != 0) || (y % 400 == 0)

def daysInMonth (y m : Nat) : Nat :=
  match m with
  | 1 => 31
  | 2 => if isLeapYear y then 29 else 28
  | 3 => 31
  | 4 => 30
  | 5 => 31
  | 6 => 30
  | 7 => 31
  | 8 => 31
  | 9 => 30
  | 10 => 31
  | 11 => 30
  | 12 => 31
  | _ => 0

/-- Days from 1970-01-01 to the civil date y-m-d (standard civil-from-days
inverse, valid for the proleptic Gregorian calendar). -/
def epochDays (y m d : Nat) : Int :=
  let yy : Int := if m ≤ 2 then (y : Int) - 1 else (y : Int)
  let era : Int := yy.fdiv 400
  let yoe : Int := yy - era * 400
  let mp : Int := ((m : Int) + 9) % 12
  let doy : Int := (153 * mp + 2).fdiv 5 + (d : Int) - 1
  let doe : Int := yoe * 365 + yoe.fdiv 4 - yoe.fdiv 100 + doy
  era * 146097 + doe - 719468

/-- Parse exactly `YYYY-MM-DD-HH-MM-SS` (the Go layout 2006-01-02-15-04-05)
with range validation, returning unix seconds. -/
def goParseYMDHMS (s : String) : Option Int :=
  match readDigits 4 s.data with
  | none => none
  | some (y, cs) =>
  match readDashDigits 2 cs with
  | none => none
  | some (mo, cs) =>
  match readDashDigits 2 cs with
  | none => none
  | some (d, cs) =>
  match readDashDigits 2 cs with
  | none => none
  | some (h, cs) =>
  match readDashDigits 2 cs with
  | none => none
  | some (mi, cs) =>
  match readDashDigits 2 cs with
  | none => none
  | some (se, cs) =>
    if cs = [] ∧ 1 ≤ mo ∧ mo ≤ 12 ∧ 1 ≤ d ∧ d ≤ daysInMonth y mo ∧
        h ≤ 23 ∧ mi ≤ 59 ∧ se ≤ 59 then
      some (epochDays y mo d * 86400 + (h : Int) * 3600 + (mi : Int) * 60 + (se : Int))
    else none

/-- Parse exactly `YYYY-MM-DD` (the Go layout 2006-01-02) with range
validation, returning the unix seconds of that midnight (UTC). -/
def goParseYMD (s : String) : Option Int :=
  match readDigits 4 s.data with
  | none => none
  | some (y, cs) =>
  match readDashDigits 2 cs with
  | none => none
  | some (mo, cs) =>
  match readDashDigits 2 cs with
  | none => none
  | some (d, cs) =>
    if cs = [] ∧ 1 ≤ mo ∧ mo ≤ 12 ∧ 1 ≤ d ∧ d ≤ daysInMonth y mo then
      some (epochDays y mo d * 86400)
    else none

/-! ## Go string and path helpers used by the video and sweep code -/

/-- Go strings.TrimSuffix. -/
def goTrimSuffix (s suf : String) : String :=
  if suf.data.isSuffixOf s.data then ⟨s.data.take (s.data.length - suf.data.length)⟩ else s

/-- Byte length of a Go string (character count; the repository handles
only ASCII names). -/
def strLen (s : String) : Nat := s.data.length

/-- Go s[:n] (byte slicing, evaluated only under a length guard in the
sources that use it). -/
def strTake (s : String) (n : Nat) : String := ⟨s.data.take n⟩

/-- Go s[a:b] (byte slicing; the Go original panics when b exceeds the
length, which callers model separately). -/
def strSlice (s : String) (a b : Nat) : String := ⟨(s.data.take b).drop a⟩

/-- Characters of a path after stripping trailing slashes (all but the
final run of path separators). -/
def dropTrailingSlashes (p : List Char) : List Char :=
  (p.reverse.dropWhile (fun c => c = '/')).reverse

/-- Go path/filepath Base on a slash-separated path: empty path gives ".",
an all-slash path gives "/", otherwise the last path element. -/
def baseChars (p : List Char) : List Char :=
  if p = [] then ['.']
  else
    let q := dropTrailingSlashes p
    if q = [] then ['/']
    else (q.reverse.takeWhile (fun c => c ≠ '/')).reverse

/-- Go filepath.Base lifted to strings. -/
def goBase (s : String) : String := ⟨baseChars s.data⟩

/-! ## Path canonicalization model (path/filepath on slash paths)

filepath.Clean is modelled component-wise: split on the separator, drop
empty and dot components, resolve dotdot against the stack (dropping it
at the root of a rooted path), and render back.  filepath.Join cleans
the slash-joined non-empty elements; filepath.Abs cleans an already
absolute path and joins a relative one onto the working directory.
strings.HasPrefix is plain list prefix.
-/

def splitSlash : List Char → List (List Char)
  | [] => [[]]
  | c :: rest =>
    if c = '/' then [] :: splitSlash rest
    else
      match splitSlash rest with
      | [] => [[c]]
      | g :: gs => (c :: g) :: gs

def intercalateSlash : List (List Char) → List Char
  | [] => []
  | [c] => c
  | c :: cs => c ++ '/' :: intercalateSlash cs

/-- The dotdot action of filepath.Clean on the output stack: at the root
of a rooted path it is dropped, against an empty or all-dotdot relative
stack it is kept, otherwise it pops the previous element. -/
def dotdotStep (rooted : Bool) (stack : List (List Char)) : List (List Char) :=
  match stack with
  | [] => if rooted then [] else [['.', '.']]
  | top :: rest => if top = ['.', '.'] then ['.', '.'] :: top :: rest else rest

/-- The element loop of filepath.Clean over the split components, with an
output stack (kept reversed). -/
def cleanStack (rooted : Bool) : List (List Char) → List (List Char) → List (List Char)
  | stack, [] => stack.reverse
  | stack, c :: cs =>
    if c = [] ∨ c = ['.'] then cleanStack rooted stack cs
    else if c = ['.', '.'] then cleanStack rooted (dotdotStep rooted stack) cs
    else cleanStack rooted (c :: stack) cs

/-- Render a rooted path from clean components; no components renders the
root itself. -/
def renderRooted (comps : List (List Char)) : List Char :=
  '/' :: intercalateSlash comps

/-- filepath.Clean. -/
def cleanChars (p : List Char) : List Char :=
  if p = [] then ['.']
  else if p.head? = some '/' then renderRooted (cleanStack true [] (splitSlash p))
  else
    if cleanStack false [] (splitSlash p) = [] then ['.']
    else intercalateSlash (cleanStack false [] (splitSlash p))

/-- filepath.Join of two elements: clean the slash-join of the non-empty
elements, empty when both are empty. -/
def joinChars (a b : List Char) : List Char :=
  if a = [] then (if b = [] then [] else cleanChars b)
  else if b = [] then cleanChars a
  else cleanChars (a ++ '/' :: b)

/-- filepath.Abs: clean an absolute path, join a relative one onto the
working directory. -/
def absChars (cwd p : List Char) : List Char :=
  if p.head? = some '/' then cleanChars p else joinChars cwd p

/-- HandlePublicLink from the stored share path on: an empty resolved
path answers not-found; otherwise the served path is
Abs(Join(DataDir, Base(storedPath))), refused unless the data directory
is a string prefix of it. -/
def publicLinkServedPath (cwd dataDir stored : List Char) : Option (List Char) :=
  if stored = [] then none
  else
    if dataDir.isPrefixOf (absChars cwd (joinChars dataDir (baseChars stored))) then
      some (absChars cwd (joinChars dataDir (baseChars stored)))
    else none

/-- The traversal check of HandleShareLink on the supplied form path:
the same canonicalized basename join, compared by string prefix. -/
def shareLinkAllowed (cwd dataDir supplied : List Char) : Bool :=
  if supplied = [] then false
  else dataDir.isPrefixOf (absChars cwd (joinChars dataDir (baseChars supplied)))

/-- A canonical path lies within the data directory: it is the directory
itself or extends it below the separator. -/
def isWithin (dataDir q : List Char) : Prop :=
  q = dataDir ∨ ∃ s, q = dataDir ++ '/' :: s

/-- An ordinary path component: non-empty, no separator, not dot or
dotdot. -/
def normalComp (c : List Char) : Prop :=
  c ≠ [] ∧ '/' ∉ c ∧ c ≠ ['.'] ∧ c ≠ ['.', '.']

instance (c : List Char) : Decidable (normalComp c) :=
  decidable_of_iff (c ≠ [] ∧ '/' ∉ c ∧ c ≠ ['.'] ∧ c ≠ ['.', '.']) Iff.rfl

/-! ## Worker job dispatch (pkg/worker) and the scheduler's enqueued set

The worker dequeues a job and switches on its type; the embedded function
records which handler the switch selects.  The Go switch statement is an
equality chain on the job type string.
-/

inductive WorkerDispatch
  | generateTimelapse
  | cleanupSnapshots
  | cleanupVideos
  | unknownJobType
  deriving DecidableEq

/-- The job-type switch of the worker loop (pkg/worker Start): a
generate_timelapse, cleanup_snapshots or cleanup_videos job reaches its
handler; every other job type falls to the default case, which produces
the error "unknown job type" and marks the job failed. -/
def dispatchJobType (t : String) : WorkerDispatch :=
  if t = "generate_timelapse" then .generateTimelapse
  else if t = "cleanup_snapshots" then .cleanupSnapshots
  else if t = "cleanup_videos" then .cleanupVideos
  else .unknownJobType

/-- A timelapse spec: name, window duration in seconds, and the frame
stride pattern ("all", "hourly" or "daily"). -/
structure TimelapseConfig where
  name : String
  duration : Int
  framePattern : String
  deriving DecidableEq

/-- The static timelapse catalog. Modelled from the spec: the models
package itself is not among the packed sources; the spec fixes the three
static specs 1_week (7 days, first-of-hour), 1_month (30 days,
first-of-day) and 1_year (365 days, first-of-day). -/
def timelapseConfigsData : List TimelapseConfig :=
  [⟨"1_week", 7 * 86400, "hourly"⟩,
   ⟨"1_month", 30 * 86400, "daily"⟩,
   ⟨"1_year", 365 * 86400, "daily"⟩]

/-- Job types enqueued by one tick of EnqueueTimelapseJobs, in enqueue
order: one generate_timelapse per recent calendar day, one per static
spec, then one of each sweep type the scheduler emits. -/
def enqueueTimelapseJobTypes (daysOf24HourSnapshots : Nat) (staticSpecs : List TimelapseConfig) :
    List String :=
  (List.range daysOf24HourSnapshots).map (fun _ => "generate_timelapse") ++
    staticSpecs.map (fun _ => "generate_timelapse") ++
    ["cleanup_snapshots", "cleanup_videos", "cleanup_logs", "cleanup_gallery"]

/-! ## Retention sweep of per-day videos (CleanOldVideos, daily branch)

For each entry of the data directory whose name starts with
timelapse_24_hour_ and ends with .webm, the Go code slices
fileName[18:28] with no length guard before parsing the date.  A Go slice
whose upper bound exceeds the string length panics at runtime, which the
embedding records as a distinguished outcome.
-/

inductive SweepFileAction
  | notMatched
  | panicked
  | skippedWarn
  | deleted
  | kept
  deriving DecidableEq

/-- Per-file behaviour of the daily-video branch of CleanOldVideos, given
the cutoff instant: files not matching the timelapse_24_hour_*.webm shape
are untouched; matching names shorter than 28 bytes make the slice
fileName[18:28] panic; an unparsable date is skipped with a warning;
otherwise the file is deleted exactly when its date is before the cutoff. -/
def cleanOldVideosDailyAction (cutoffDate : Int) (fileName : String) : SweepFileAction :=
  if ("timelapse_24_hour_".data.isPrefixOf fileName.data ∧
      ".webm".data.isSuffixOf fileName.data) then
    if strLen fileName < 28 then .panicked
    else
      match goParseYMD (strSlice fileName 18 28) with
      | none => .skippedWarn
      | some d => if d < cutoffDate then .deleted else .kept
  else .notMatched

/-! ## Frame selector (filterSnapshots)

Embedding of the current video-package variant: the filtering window is
computed from the spec, files whose base name fails the strict timestamp
parse are dropped, and the hourly/daily stride is the deterministic
single pass over the already chronological list, keeping a frame exactly
when its 13-character (respectively 10-character) base-name key differs
from the previously retained key.  The final sort.Strings is modelled by
insertion sort under byte-lexicographic order; since that order is total
and antisymmetric, every correct sort produces the same list.
-/

/-- Capture instant encoded in a snapshot file name, if well formed:
filepath.Base, strings.TrimSuffix ".jpg", the six-component check and the
strict time.Parse (the strict parse already forces exactly six
dash-separated components). -/
def snapshotTimeOfName (file : String) : Option Int :=
  goParseYMDHMS (goTrimSuffix (goBase file) ".jpg")

/-- Go time.Truncate(24h) on a unix instant (floor to a whole day; the
unix epoch is a whole number of days after the Go zero time). -/
def truncDay (t : Int) : Int := t.fdiv 86400 * 86400

def windowStart (cfg : TimelapseConfig) (targetTime : Int) : Int :=
  if "24_hour_".data.isPrefixOf cfg.name.data then truncDay targetTime
  else targetTime - cfg.duration

def windowEnd (cfg : TimelapseConfig) (targetTime : Int) : Int :=
  if "24_hour_".data.isPrefixOf cfg.name.data then truncDay targetTime + 86400
  else targetTime

/-- The window-inclusion test of filterSnapshots:
`!fileTime.Before(windowStart) && fileTime.Before(windowEnd)`. -/
def inWindow (ws we t : Int) : Bool := !(decide (t < ws)) && decide (t < we)

/-- The pre-filtering loop of filterSnapshots: keep the files whose base
name parses and whose instant lies inside the window. -/
def recentFiles (allFiles : List String) (cfg : TimelapseConfig) (targetTime : Int) :
    List String :=
  allFiles.filter fun file =>
    match snapshotTimeOfName file with
    | none => false
    | some t => inWindow (windowStart cfg targetTime) (windowEnd cfg targetTime) t

/-- The hourly stride pass: `lastHour` starts empty; a frame is retained
exactly when its 13-byte base-name key differs from the previously
retained key, names shorter than 13 bytes being skipped. -/
def hourlyPass (lastHour : String) : List String → List String
  | [] => []
  | f :: rest =>
    let fileName := goBase f
    if 13 ≤ strLen fileName then
      let hourKey := strTake fileName 13
      if hourKey ≠ lastHour then f :: hourlyPass hourKey rest else hourlyPass lastHour rest
    else hourlyPass lastHour rest

/-- The daily stride pass, identical with a 10-byte key. -/
def dailyPass (lastDay : String) : List String → List String
  | [] => []
  | f :: rest =>
    let fileName := goBase f
    if 10 ≤ strLen fileName then
      let dayKey := strTake fileName 10
      if dayKey ≠ lastDay then f :: dailyPass dayKey rest else dailyPass lastDay rest
    else dailyPass lastDay rest

/-- The 13-byte YYYY-MM-DD-HH key of a frame's base name, as sliced by the
hourly stride. -/
def hourKeyOf (f : String) : String := strTake (goBase f) 13

/-- Specification-side helper: the first element of each maximal run of
equal keys, which on a chronologically sorted list is the chronologically
first frame of each distinct key. -/
def keyFirstOfRuns (key : String → String) : List String → List String
  | [] => []
  | f :: rest =>
    f :: keyFirstOfRuns key (rest.dropWhile (fun g => key g == key f))
termination_by l => l.length
decreasing_by
  simp only [List.length_cons]
  exact Nat.lt_succ_of_le (List.dropWhile_sublist _).length_le

/-- Byte-lexicographic comparison of Go strings (the order used by
sort.Strings; characters here are ASCII so bytes and characters agree). -/
def lexLe : List Char → List Char → Bool
  | [], _ => true
  | _ :: _, [] => false
  | a :: as, b :: bs => if a < b then true else if a = b then lexLe as bs else false

/-- Go sort.Strings: some correct sort under the total byte order; the
sorted rearrangement of a string list is unique, so insertion sort is a
faithful model. -/
def goSortStrings (l : List String) : List String :=
  List.insertionSort (fun a b => lexLe a.data b.data = true) l

/-- filterSnapshots of the video package: window pre-filter, stride
switch (default: empty), final sort. -/
def filterSnapshots (allFiles : List String) (cfg : TimelapseConfig) (targetTime : Int) :
    List String :=
  goSortStrings
    (if cfg.framePattern = "all" then recentFiles allFiles cfg targetTime
     else if cfg.framePattern = "hourly" then hourlyPass "" (recentFiles allFiles cfg targetTime)
     else if cfg.framePattern = "daily" then dailyPass "" (recentFiles allFiles cfg targetTime)
     else [])

/-! ## Video assembler (GenerateSingleTimelapse)

State: the sidecar tracker file content (none = absent) and the canonical
artifact, whose content is abstracted as the list of frames it
incorporates (none = file missing, some [] = zero-byte file).  External
fallible steps are driven by an oracle; every run returns the final
state, the trace of write effects in program order, and the Go error
result.
-/

/-- The range loop of GenerateSingleTimelapse that looks for the tracked
tail: one past the first position of the tail when found. -/
def startIndexScan (tail : String) : List String → Option Nat
  | [] => none
  | s :: rest => if s == tail then some 1 else (startIndexScan tail rest).map (· + 1)

/-- The startIndex computation of GenerateSingleTimelapse: zero when the
tracked tail is empty, one past the first position of the tail in the
selected list when found, zero when not found. -/
def computeStartIndex (tail : String) (F : List String) : Nat :=
  if tail = "" then 0 else (startIndexScan tail F).getD 0

inductive AssembleMode
  | full
  | incremental
  | noop
  deriving DecidableEq

structure AssemblerState where
  sidecar : Option String
  artifact : Option (List String)
  deriving DecidableEq

/-- util.FileExists on the canonical artifact. -/
def artifactOnDisk (st : AssemblerState) : Bool := st.artifact.isSome

/-- util.IsFileEmpty on the canonical artifact (a missing file counts as
empty, as in the Go helper). -/
def artifactIsEmptyFile (st : AssemblerState) : Bool :=
  match st.artifact with
  | none => true
  | some l => l.isEmpty

/-- The branch decision of GenerateSingleTimelapse: full regeneration
when the artifact is missing or zero-byte or startIndex is zero,
incremental append when startIndex is positive and below the frame count,
no-op otherwise. -/
def decideMode (st : AssemblerState) (F : List String) : AssembleMode :=
  if artifactOnDisk st = false ∨ artifactIsEmptyFile st = true ∨
      computeStartIndex (st.sidecar.getD "") F = 0 then .full
  else if computeStartIndex (st.sidecar.getD "") F < F.length then .incremental
  else .noop

inductive AssembleEv
  | writeListFile
  | encodeTemp
  | archiveOld
  | renameTemp
  | segWrite (f : String)
  | concatWrite (f : String)
  | removeSeg (f : String)
  | renameConcat (f : String)
  | sidecarWrite (f : String)
  deriving DecidableEq

/-- Outcome of the external steps taken while appending one frame:
either everything succeeds, or the first failing step is segment
creation, concatenation, the rename over the artifact, or the (merely
logged) sidecar write. -/
inductive FrameOutcome
  | allOk
  | segFail
  | concatFail
  | renameFail
  | sidecarFail
  deriving DecidableEq

instance : DecidableEq (Except String Unit) := fun a b =>
  match a, b with
  | .ok u, .ok v =>
    match u, v with
    | (), () => isTrue rfl
  | .error x, .error y =>
    if h : x = y then isTrue (by rw [h]) else isFalse (fun he => by cases he; exact h rfl)
  | .ok _, .error _ => isFalse (fun he => by cases he)
  | .error _, .ok _ => isFalse (fun he => by cases he)

structure AssembleOracle where
  frame : String → FrameOutcome
  regenOk : Bool
  regenSidecarOk : Bool

def allOkOracle : AssembleOracle := ⟨fun _ => .allOk, true, true⟩

/-- One iteration of the incremental append loop: create the one-frame
segment, concatenate artifact and segment into a temp sibling, remove the
segment, rename the temp over the artifact, then (failure only logged)
update the sidecar to the new frame.  A failing segment, concat or rename
returns the Go error and leaves artifact and sidecar as they were. -/
def processFrame (o : AssembleOracle) (st : AssemblerState) (f : String) :
    AssemblerState × List AssembleEv × Except String Unit :=
  match o.frame f with
  | .segFail => (st, [], .error "error creating segment")
  | .concatFail => (st, [.segWrite f, .removeSeg f], .error "error concatenating")
  | .renameFail =>
      (st, [.segWrite f, .concatWrite f, .removeSeg f], .error "error renaming new video")
  | .sidecarFail =>
      ({ st with artifact := some (st.artifact.getD [] ++ [f]) },
       [.segWrite f, .concatWrite f, .removeSeg f, .renameConcat f], .ok ())
  | .allOk =>
      (⟨some f, some (st.artifact.getD [] ++ [f])⟩,
       [.segWrite f, .concatWrite f, .removeSeg f, .renameConcat f, .sidecarWrite f], .ok ())

/-- The incremental append loop over the new frames, aborting at the
first frame whose segment, concat or rename step fails. -/
def incrementalAppendLoop (o : AssembleOracle) (st : AssemblerState) :
    List String → AssemblerState × List AssembleEv × Except String Unit
  | [] => (st, [], .ok ())
  | f :: rest =>
    match processFrame o st f with
    | (st1, evs, .error e) => (st1, evs, .error e)
    | (st1, evs, .ok _) =>
      let r := incrementalAppendLoop o st1 rest
      (r.1, evs ++ r.2.1, r.2.2)

/-- regenerateFullTimelapse: write the concat manifest, encode to a temp
sibling, archive any existing artifact, rename the temp over the
canonical name.  On encoder failure the manifest and partial temp are
left behind but artifact and sidecar are untouched. -/
def regenerateFullTimelapse (o : AssembleOracle) (st : AssemblerState) (F : List String) :
    AssemblerState × List AssembleEv × Except String Unit :=
  if o.regenOk then
    ({ st with artifact := some F },
     [.writeListFile, .encodeTemp] ++
       (if st.artifact.isSome then [.archiveOld] else []) ++ [.renameTemp],
     .ok ())
  else (st, [.writeListFile], .error "ffmpeg execution failed")

/-- The body of GenerateSingleTimelapse from the selected frame list on:
empty selection returns success untouched; otherwise the branch decision
runs full regeneration (then records the final frame in the sidecar,
write failure only logged), or incrementally appends the frames from
startIndex on, or does nothing. -/
def assembleCore (o : AssembleOracle) (st : AssemblerState) (F : List String) :
    AssemblerState × List AssembleEv × Except String Unit :=
  if F.isEmpty then (st, [], .ok ())
  else
    match decideMode st F with
    | .full =>
      match regenerateFullTimelapse o st F with
      | (st1, evs, .error e) => (st1, evs, .error e)
      | (st1, evs, .ok _) =>
        match F.getLast? with
        | some lastF =>
          if o.regenSidecarOk then
            ({ st1 with sidecar := some lastF }, evs ++ [.sidecarWrite lastF], .ok ())
          else (st1, evs, .ok ())
        | none => (st1, evs, .ok ())
    | .incremental =>
      incrementalAppendLoop o st (F.drop (computeStartIndex (st.sidecar.getD "") F))
    | .noop => (st, [], .ok ())

/-! ## Job queue (pkg/jobs) and the worker drain loop

A row of the jobs table: autoincrement id (rowid order equals insertion
order), job type, created_at (unix seconds from CURRENT_TIMESTAMP, which
never decreases across inserts) and status.  The table is the list of
rows in rowid order.  GetPendingJob runs
SELECT ... WHERE status = .. pending .. ORDER BY created_at ASC LIMIT 1;
SQLite scans the rows in rowid order keeping the first row with the
least created_at, so ties go to the earlier row, which the fold below
reproduces.
-/

structure JobRow where
  id : Nat
  jobType : String
  createdAt : Int
  status : String
  deriving DecidableEq

def pickOldest (acc : Option JobRow) (j : JobRow) : Option JobRow :=
  match acc with
  | none => some j
  | some b => if j.createdAt < b.createdAt then some j else acc

/-- GetPendingJob: the first pending row carrying the minimal created_at. -/
def getPendingJob (table : List JobRow) : Option JobRow :=
  (table.filter (fun j => j.status == "pending")).foldl pickOldest none

/-- UpdateJobStatus: UPDATE jobs SET status = ? WHERE id = ?. -/
def updateJobStatus (id : Nat) (status : String) (table : List JobRow) : List JobRow :=
  table.map (fun j => if j.id == id then { j with status := status } else j)

/-- DeleteJob: DELETE FROM jobs WHERE id = ?. -/
def deleteJob (id : Nat) (table : List JobRow) : List JobRow :=
  table.filter (fun j => !(j.id == id))

/-- One worker iteration on a claimed job: mark running, process, mark
completed (or failed), then delete the row. -/
def workerStep (j : JobRow) (table : List JobRow) : List JobRow :=
  deleteJob j.id (updateJobStatus j.id "completed" (updateJobStatus j.id "running" table))

/-- The worker drain loop on a fixed table: repeatedly claim the oldest
pending job, process it and delete it, recording the dispatch order of
job ids.  The fuel argument only bounds the iteration count; the initial
row count is always enough fuel to drain the table. -/
def workerRunAux : Nat → List JobRow → List Nat
  | 0, _ => []
  | n + 1, table =>
    match getPendingJob table with
    | none => []
    | some j => j.id :: workerRunAux n (workerStep j table)

def workerRun (table : List JobRow) : List Nat :=
  workerRunAux table.length table

/-- Specification-side temporal property of a write trace: every sidecar
update naming a frame is preceded, earlier in the trace, by the rename
that persisted the concatenation incorporating that frame. -/
def traceOk (evs : List AssembleEv) : Prop :=
  ∀ l1 g l2, evs = l1 ++ AssembleEv.sidecarWrite g :: l2 → AssembleEv.renameConcat g ∈ l1

/-- Specification-side helper: the sidecar value after successfully
appending a frame list, namely the last frame when one exists, else the
previous value. -/
def lastTracked (fs : List String) (dflt : Option String) : Option String :=
  match fs with
  | [] => dflt
  | f :: rest => lastTracked rest (some f)

/-- GenerateSingleTimelapse: resolve the spec (dynamic 24_hour_ name with
a strictly parsed date, or a static catalog entry), succeed with no work
when no snapshots exist at all, select frames and run the core. -/
def generateSingleTimelapse (o : AssembleOracle) (st : AssemblerState)
    (timelapseName : String) (allSnapshots : List String) (now : Int) :
    AssemblerState × List AssembleEv × Except String Unit :=
  if "24_hour_".data.isPrefixOf timelapseName.data then
    match goParseYMD ⟨timelapseName.data.drop 8⟩ with
    | none => (st, [], .error "invalid date format in timelapse name")
    | some targetDate =>
      if allSnapshots.isEmpty then (st, [], .ok ())
      else assembleCore o st (filterSnapshots allSnapshots ⟨timelapseName, 86400, "all"⟩ targetDate)
  else
    match timelapseConfigsData.find? (fun c => c.name == timelapseName) with
    | none => (st, [], .error "no timelapse configuration found")
    | some cfg =>
      if allSnapshots.isEmpty then (st, [], .ok ())
      else assembleCore o st (filterSnapshots allSnapshots cfg now)

end TimeMachine

namespace TimeMachine

/-- C3: the timelapse scheduler enqueues cleanup_logs and cleanup_gallery
jobs on every tick, but the worker's job-type switch has no case for
either, so both fall to the default branch and fail with an unknown job
type error instead of reaching CleanupLogFiles and CleanupGallery. -/
theorem worker_drops_log_and_gallery_sweeps :
    "cleanup_logs" ∈ enqueueTimelapseJobTypes 1 timelapseConfigsData ∧
    "cleanup_gallery" ∈ enqueueTimelapseJobTypes 1 timelapseConfigsData ∧
    dispatchJobType "cleanup_logs" = .unknownJobType ∧
    dispatchJobType "cleanup_gallery" = .unknownJobType := by
  refine ⟨?_, ?_, ?_, ?_⟩ <;> decide

/-- C4: a data-directory entry named timelapse_24_hour_ab.webm matches the
daily-video shape but has fewer than ten characters between the prefix and
the extension, so the unguarded slice fileName[18:28] in CleanOldVideos
panics instead of skipping the malformed name with a warning. -/
theorem daily_video_sweep_short_name_panics :
    cleanOldVideosDailyAction 0 "timelapse_24_hour_ab.webm" = .panicked ∧
    SweepFileAction.panicked ≠ SweepFileAction.skippedWarn ∧
    cleanOldVideosDailyAction 2000000000 "timelapse_24_hour_2020-01-02.webm" = .deleted := by
  refine ⟨?_, ?_, ?_⟩ <;> decide

/-! ## Lemmas on the startIndex scan and the all-success append loop -/

theorem startIndexScan_of_not_mem (tail : String) :
    ∀ F : List String, tail ∉ F → startIndexScan tail F = none := by
  intro F
  induction F with
  | nil => intro _; rfl
  | cons s rest ih =>
    intro h
    have hs : ¬(s = tail) := fun he => h (he ▸ List.mem_cons_self s rest)
    have hr : tail ∉ rest := fun hm => h (List.mem_cons_of_mem s hm)
    simp [startIndexScan, hs, ih hr]

theorem startIndexScan_of_mem (tail : String) :
    ∀ F : List String, tail ∈ F →
      ∃ i, F[i]? = some tail ∧ tail ∉ F.take i ∧ startIndexScan tail F = some (i + 1) := by
  intro F
  induction F with
  | nil => intro h; exact absurd h (List.not_mem_nil tail)
  | cons s rest ih =>
    intro h
    by_cases hs : s = tail
    · exact ⟨0, by simp [hs], by simp, by simp [startIndexScan, hs]⟩
    · have hr : tail ∈ rest := by
        rcases List.mem_cons.mp h with h1 | h2
        · exact absurd h1.symm hs
        · exact h2
      obtain ⟨i, hget, htake, hscan⟩ := ih hr
      refine ⟨i + 1, by simpa using hget, ?_, by simp [startIndexScan, hs, hscan]⟩
      intro hmem
      rcases List.mem_cons.mp (by simpa using hmem) with h1 | h2
      · exact hs h1.symm
      · exact htake h2

theorem computeStartIndex_of_empty_or_not_mem (tail : String) (F : List String)
    (h : tail = "" ∨ tail ∉ F) : computeStartIndex tail F = 0 := by
  rcases h with h | h
  · simp [computeStartIndex, h]
  · by_cases he : tail = ""
    · simp [computeStartIndex, he]
    · simp [computeStartIndex, he, startIndexScan_of_not_mem tail F h]

theorem computeStartIndex_of_mem (tail : String) (F : List String)
    (hne : tail ≠ "") (hmem : tail ∈ F) :
    ∃ i, F[i]? = some tail ∧ tail ∉ F.take i ∧ computeStartIndex tail F = i + 1 := by
  obtain ⟨i, hget, htake, hscan⟩ := startIndexScan_of_mem tail F hmem
  exact ⟨i, hget, htake, by simp [computeStartIndex, hne, hscan]⟩

theorem appendLoop_allOk :
    ∀ (fs : List String) (st : AssemblerState) (A : List String), st.artifact = some A →
      (incrementalAppendLoop allOkOracle st fs).1 = ⟨lastTracked fs st.sidecar, some (A ++ fs)⟩ ∧
      (incrementalAppendLoop allOkOracle st fs).2.2 = .ok () := by
  intro fs
  induction fs with
  | nil =>
    intro st A hA
    cases st with
    | mk sc ar =>
      simp only [incrementalAppendLoop, lastTracked]
      simp_all
  | cons f rest ih =>
    intro st A hA
    have hstep : processFrame allOkOracle st f =
        (⟨some f, some (A ++ [f])⟩,
         [.segWrite f, .concatWrite f, .removeSeg f, .renameConcat f, .sidecarWrite f],
         .ok ()) := by
      simp [processFrame, allOkOracle, hA]
    obtain ⟨h1, h2⟩ := ih ⟨some f, some (A ++ [f])⟩ (A ++ [f]) rfl
    refine ⟨?_, ?_⟩
    · simp only [incrementalAppendLoop, hstep, h1, lastTracked]
      simp
    · simp only [incrementalAppendLoop, hstep, h2]

theorem readDigits_length :
    ∀ (n : Nat) (cs : List Char) (v : Nat) (cs' : List Char),
      readDigits n cs = some (v, cs') → cs.length = n + cs'.length := by
  intro n
  induction n with
  | zero =>
    intro cs v cs' h
    simp only [readDigits, Option.some.injEq, Prod.mk.injEq] at h
    rw [← h.2]
    omega
  | succ n ih =>
    intro cs v cs' h
    cases cs with
    | nil => simp [readDigits] at h
    | cons c cs0 =>
      rw [readDigits] at h
      cases hd : digitVal c with
      | none => rw [hd] at h; simp at h
      | some d =>
        rw [hd] at h
        cases hr : readDigits n cs0 with
        | none => rw [hr] at h; simp at h
        | some rc =>
          obtain ⟨r, cs1⟩ := rc
          rw [hr] at h
          simp only [Option.some.injEq, Prod.mk.injEq] at h
          have := ih cs0 r cs1 hr
          simp only [List.length_cons, this, ← h.2]
          omega

theorem readDash_length (cs cs' : List Char) (h : readDash cs = some cs') :
    cs.length = 1 + cs'.length := by
  cases cs with
  | nil => simp [readDash] at h
  | cons c cs0 =>
    simp only [readDash] at h
    split_ifs at h with hc
    simp only [Option.some.injEq] at h
    rw [← h]
    simp only [List.length_cons]
    omega

theorem readDashDigits_length (n : Nat) (cs : List Char) (v : Nat) (cs' : List Char)
    (h : readDashDigits n cs = some (v, cs')) : cs.length = n + 1 + cs'.length := by
  rw [readDashDigits] at h
  cases hd : readDash cs with
  | none => rw [hd] at h; simp at h
  | some cs1 =>
    rw [hd] at h
    have h1 := readDash_length cs cs1 hd
    have h2 := readDigits_length n cs1 v cs' h
    omega

theorem goParseYMDHMS_length (s : String) (t : Int) (h : goParseYMDHMS s = some t) :
    s.data.length = 19 := by
  rw [goParseYMDHMS] at h
  cases h1 : readDigits 4 s.data with
  | none => rw [h1] at h; simp at h
  | some yc =>
    obtain ⟨y, cs1⟩ := yc
    rw [h1] at h
    dsimp only at h
    cases h2 : readDashDigits 2 cs1 with
    | none => rw [h2] at h; simp at h
    | some mc =>
      obtain ⟨mo, cs2⟩ := mc
      rw [h2] at h
      dsimp only at h
      cases h3 : readDashDigits 2 cs2 with
      | none => rw [h3] at h; simp at h
      | some dc =>
        obtain ⟨d, cs3⟩ := dc
        rw [h3] at h
        dsimp only at h
        cases h4 : readDashDigits 2 cs3 with
        | none => rw [h4] at h; simp at h
        | some hc =>
          obtain ⟨hh, cs4⟩ := hc
          rw [h4] at h
          dsimp only at h
          cases h5 : readDashDigits 2 cs4 with
          | none => rw [h5] at h; simp at h
          | some mic =>
            obtain ⟨mi, cs5⟩ := mic
            rw [h5] at h
            dsimp only at h
            cases h6 : readDashDigits 2 cs5 with
            | none => rw [h6] at h; simp at h
            | some sec =>
              obtain ⟨se, cs6⟩ := sec
              rw [h6] at h
              dsimp only at h
              have hcs6 : cs6 = [] := by
                by_contra hne
                rw [if_neg (fun hcond => hne hcond.1)] at h
                exact absurd h (by simp)
              have l1 := readDigits_length 4 s.data y cs1 h1
              have l2 := readDashDigits_length 2 cs1 mo cs2 h2
              have l3 := readDashDigits_length 2 cs2 d cs3 h3
              have l4 := readDashDigits_length 2 cs3 hh cs4 h4
              have l5 := readDashDigits_length 2 cs4 mi cs5 h5
              have l6 := readDashDigits_length 2 cs5 se cs6 h6
              rw [hcs6] at l6
              simp only [List.length_nil] at l6
              omega

theorem base_len_of_parse (f : String) (t : Int) (h : snapshotTimeOfName f = some t) :
    13 ≤ strLen (goBase f) := by
  unfold snapshotTimeOfName at h
  have h19 := goParseYMDHMS_length _ _ h
  unfold goTrimSuffix at h19
  unfold strLen
  split_ifs at h19 with hsuf
  · simp only [List.length_take] at h19
    omega
  · omega

theorem strEq_of_data {a b : String} (h : a.data = b.data) : a = b :=
  congrArg String.mk h

theorem hourKeyOf_data (f : String) : (hourKeyOf f).data = (goBase f).data.take 13 := rfl

theorem hourKeyOf_ne_empty (f : String) (hlen : 13 ≤ strLen (goBase f)) :
    hourKeyOf f ≠ "" := by
  intro he
  have hd := congrArg String.data he
  rw [hourKeyOf_data] at hd
  have hlen0 : ((goBase f).data.take 13).length = 0 := by rw [hd]; rfl
  rw [List.length_take] at hlen0
  unfold strLen at hlen
  omega

theorem lexLe_antisymm :
    ∀ a b : List Char, lexLe a b = true → lexLe b a = true → a = b := by
  intro a
  induction a with
  | nil =>
    intro b _ h2
    cases b with
    | nil => rfl
    | cons y bs => simp [lexLe] at h2
  | cons x as ih =>
    intro b h1 h2
    cases b with
    | nil => simp [lexLe] at h1
    | cons y bs =>
      rcases lt_trichotomy x y with h | h | h
      · simp [lexLe, asymm h, (ne_of_lt h).symm] at h2
      · subst h
        simp only [lexLe, lt_irrefl, if_false, if_pos rfl] at h1 h2
        rw [ih bs h1 h2]
      · simp [lexLe, asymm h, (ne_of_lt h).symm] at h1

theorem lexLe_take (n : Nat) :
    ∀ a b : List Char, lexLe a b = true → lexLe (a.take n) (b.take n) = true := by
  induction n with
  | zero =>
    intro a b _
    rfl
  | succ n ih =>
    intro a b h
    cases a with
    | nil => rfl
    | cons x as =>
      cases b with
      | nil => simp [lexLe] at h
      | cons y bs =>
        by_cases hxy : x < y
        · simp [List.take_succ_cons, lexLe, hxy]
        · by_cases hxe : x = y
          · subst hxe
            simp only [lexLe, lt_irrefl, if_false, if_pos rfl] at h
            simp only [List.take_succ_cons, lexLe, lt_irrefl, if_false, if_pos rfl]
            exact ih as bs h
          · simp [lexLe, hxy, hxe] at h

theorem hourlyPass_sublist : ∀ (last : String) (files : List String),
    List.Sublist (hourlyPass last files) files := by
  intro last files
  induction files generalizing last with
  | nil => exact List.Sublist.refl []
  | cons f rest ih =>
    rw [hourlyPass]
    by_cases h1 : 13 ≤ strLen (goBase f)
    · rw [if_pos h1]
      show (if strTake (goBase f) 13 ≠ last then
          f :: hourlyPass (strTake (goBase f) 13) rest else hourlyPass last rest).Sublist (f :: rest)
      by_cases h2 : strTake (goBase f) 13 ≠ last
      · rw [if_pos h2]
        exact (ih _).cons₂ f
      · rw [if_neg h2]
        exact (ih _).cons f
    · rw [if_neg h1]
      exact (ih _).cons f

theorem dropWhile_eq_self_of_all {p : String → Bool} :
    ∀ l : List String, (∀ x ∈ l, p x = false) → l.dropWhile p = l := by
  intro l h
  cases l with
  | nil => rfl
  | cons x xs =>
    rw [List.dropWhile_cons, h x (List.mem_cons_self x xs)]
    simp

/-- The hourly stride pass equals first-of-each-run on the list with the
leading frames keyed like the accumulator dropped, for well-formed base
names. -/
theorem hourlyPass_eq : ∀ (files : List String) (last : String),
    (∀ f ∈ files, 13 ≤ strLen (goBase f)) →
    hourlyPass last files =
      keyFirstOfRuns hourKeyOf (files.dropWhile (fun g => hourKeyOf g == last)) := by
  intro files
  induction files with
  | nil => intro last _; simp [hourlyPass, keyFirstOfRuns]
  | cons f rest ih =>
    intro last hwf
    have hf : 13 ≤ strLen (goBase f) := hwf f (List.mem_cons_self f rest)
    have hwr : ∀ g ∈ rest, 13 ≤ strLen (goBase g) :=
      fun g hg => hwf g (List.mem_cons_of_mem f hg)
    rw [hourlyPass, if_pos hf]
    by_cases hk : strTake (goBase f) 13 = last
    · rw [if_neg (by simpa using hk)]
      rw [List.dropWhile_cons]
      have : (hourKeyOf f == last) = true := by
        simp [hourKeyOf, hk]
      rw [this]
      simp only [if_pos]
      exact ih last hwr
    · rw [if_pos (by simpa using hk)]
      rw [List.dropWhile_cons]
      have : (hourKeyOf f == last) = false := by
        simp [hourKeyOf, hk]
      rw [this]
      simp only [Bool.false_eq_true, if_false]
      rw [keyFirstOfRuns]
      rw [ih (strTake (goBase f) 13) hwr]
      rfl

/-- On a list whose keys are non-decreasing and whose elements are
distinct, the first element of each run is exactly the first element
carrying its key. -/
theorem keyFirstOfRuns_eq_filter :
    ∀ (n : Nat) (files : List String), files.length ≤ n →
      files.Nodup →
      files.Pairwise (fun a b => lexLe (hourKeyOf a).data (hourKeyOf b).data = true) →
      keyFirstOfRuns hourKeyOf files =
        files.filter (fun f =>
          files.find? (fun g => hourKeyOf g == hourKeyOf f) == some f) := by
  intro n
  induction n with
  | zero =>
    intro files hlen _ _
    rw [List.length_eq_zero.mp (Nat.le_zero.mp hlen)]
    simp [keyFirstOfRuns]
  | succ n ih =>
    intro files hlen hnd hpw
    cases files with
    | nil => simp [keyFirstOfRuns]
    | cons f rest =>
      have hfr : f ∉ rest := (List.nodup_cons.mp hnd).1
      have hndr : rest.Nodup := (List.nodup_cons.mp hnd).2
      have hrel : ∀ b ∈ rest, lexLe (hourKeyOf f).data (hourKeyOf b).data = true :=
        (List.pairwise_cons.mp hpw).1
      have hpwr : rest.Pairwise (fun a b => lexLe (hourKeyOf a).data (hourKeyOf b).data = true) :=
        (List.pairwise_cons.mp hpw).2
      have hQsplit := (List.takeWhile_append_dropWhile
        (fun g => hourKeyOf g == hourKeyOf f) rest).symm
      set block := rest.takeWhile (fun g => hourKeyOf g == hourKeyOf f) with hblockDef
      set rest2 := rest.dropWhile (fun g => hourKeyOf g == hourKeyOf f) with hrest2Def
      have hblockKey : ∀ b ∈ block, hourKeyOf b = hourKeyOf f := by
        intro b hb
        have := List.mem_takeWhile_imp hb
        simpa using this
      have hrest2sub : List.Sublist rest2 rest := List.dropWhile_sublist _
      have hrest2Key : ∀ x ∈ rest2, hourKeyOf x ≠ hourKeyOf f := by
        intro x hx hkx
        cases hr2 : rest2 with
        | nil => rw [hr2] at hx; exact absurd hx (List.not_mem_nil x)
        | cons y ys =>
          have hy : (fun g => hourKeyOf g == hourKeyOf f) y = false := by
            have := List.head?_dropWhile_not (fun g => hourKeyOf g == hourKeyOf f) rest
            rw [← hrest2Def, hr2] at this
            simpa using this
          have hyne : hourKeyOf y ≠ hourKeyOf f := by simpa using hy
          have hymem : y ∈ rest := by
            refine List.Sublist.mem ?_ hrest2sub
            rw [hr2]
            exact List.mem_cons_self y ys
          rw [hr2] at hx
          rcases List.mem_cons.mp hx with hxy | hxys
          · exact hyne (hxy ▸ hkx)
          · have hpw2 : (y :: ys).Pairwise
                (fun a b => lexLe (hourKeyOf a).data (hourKeyOf b).data = true) :=
              hr2 ▸ (hpwr.sublist hrest2sub)
            have hyx : lexLe (hourKeyOf y).data (hourKeyOf x).data = true :=
              (List.pairwise_cons.mp hpw2).1 x hxys
            have hfy : lexLe (hourKeyOf f).data (hourKeyOf y).data = true := hrel y hymem
            have : (hourKeyOf y).data = (hourKeyOf f).data :=
              lexLe_antisymm _ _ (hkx ▸ hyx) hfy
            exact hyne (strEq_of_data this)
      rw [keyFirstOfRuns]
      have hfstep : ((f :: rest).find? (fun g => hourKeyOf g == hourKeyOf f) == some f) = true := by
        rw [List.find?_cons_of_pos _ (by simp)]
        simp
      rw [List.filter_cons]
      simp only [hfstep, if_true]
      congr 1
      have hIH : keyFirstOfRuns hourKeyOf rest2 =
          rest2.filter (fun x => rest2.find? (fun g => hourKeyOf g == hourKeyOf x) == some x) := by
        refine ih rest2 ?_ (hndr.sublist hrest2sub) (hpwr.sublist hrest2sub)
        have h1 : rest2.length ≤ rest.length := hrest2sub.length_le
        have h2 : rest.length + 1 ≤ n + 1 := by simpa using hlen
        omega
      rw [hIH]
      conv_rhs => rw [hQsplit]
      rw [List.filter_append]
      rw [← hQsplit]
      have hblockNil : block.filter (fun x =>
          (f :: rest).find? (fun g => hourKeyOf g == hourKeyOf x) == some x) = [] := by
        rw [List.filter_eq_nil_iff]
        intro b hb
        have hkb : hourKeyOf b = hourKeyOf f := hblockKey b hb
        have : (f :: rest).find? (fun g => hourKeyOf g == hourKeyOf b) = some f := by
          rw [List.find?_cons_of_pos _ (by simp [hkb])]
        rw [this]
        simp only [beq_iff_eq, Option.some.injEq]
        intro hfb
        refine hfr ?_
        rw [hfb]
        exact List.Sublist.mem hb (List.takeWhile_sublist _)
      rw [hblockNil, List.nil_append]
      refine (List.filter_congr ?_).symm
      intro x hx
      have hxk : hourKeyOf x ≠ hourKeyOf f := hrest2Key x hx
      have hstep1 : (f :: rest).find? (fun g => hourKeyOf g == hourKeyOf x) =
          rest.find? (fun g => hourKeyOf g == hourKeyOf x) := by
        refine List.find?_cons_of_neg _ ?_
        simp only [beq_iff_eq]
        intro hfx
        exact hxk hfx.symm
      have hstep2 : rest.find? (fun g => hourKeyOf g == hourKeyOf x) =
          rest2.find? (fun g => hourKeyOf g == hourKeyOf x) := by
        conv_lhs => rw [hQsplit]
        rw [List.find?_append]
        have : block.find? (fun g => hourKeyOf g == hourKeyOf x) = none := by
          rw [List.find?_eq_none]
          intro b hb
          simp only [beq_iff_eq]
          intro hbx
          exact hxk (hbx ▸ (hblockKey b hb).symm).symm
        rw [this, Option.none_or]
      rw [hstep1, hstep2]

/-- C6: a frame whose name parses to instant t is selected into the
window exactly when t is at or after the window start and strictly before
the window end; in particular a frame at the exact start is included and
one at the exact end is excluded.  For the every-frame pattern the final
selector output has the same members as the windowed subset. -/
theorem frame_window_inclusion (allFiles : List String) (cfg : TimelapseConfig)
    (targetTime : Int) (f : String) (t : Int)
    (hparse : snapshotTimeOfName f = some t) :
    (f ∈ recentFiles allFiles cfg targetTime ↔
      f ∈ allFiles ∧ windowStart cfg targetTime ≤ t ∧ t < windowEnd cfg targetTime) ∧
    (cfg.framePattern = "all" →
      (f ∈ filterSnapshots allFiles cfg targetTime ↔
        f ∈ recentFiles allFiles cfg targetTime)) := by
  constructor
  · unfold recentFiles
    rw [List.mem_filter, hparse]
    unfold inWindow
    simp [not_lt, and_assoc]
  · intro hall
    unfold filterSnapshots
    rw [hall]
    simp only [if_pos]
    unfold goSortStrings
    exact (List.perm_insertionSort _ _).mem_iff

/-- C6 witness: one concrete frame at the exact start of its day window. -/
theorem frame_window_inclusion_witness :
    snapshotTimeOfName "snapshots/2025-01/02/00/2025-01-02-00-00-00.jpg" =
        some 1735776000 ∧
    ("snapshots/2025-01/02/00/2025-01-02-00-00-00.jpg" ∈
        recentFiles ["snapshots/2025-01/02/00/2025-01-02-00-00-00.jpg"]
          ⟨"24_hour_2025-01-02", 86400, "all"⟩ 1735776000 ↔
      "snapshots/2025-01/02/00/2025-01-02-00-00-00.jpg" ∈
          ["snapshots/2025-01/02/00/2025-01-02-00-00-00.jpg"] ∧
        windowStart ⟨"24_hour_2025-01-02", 86400, "all"⟩ 1735776000 ≤ 1735776000 ∧
        1735776000 < windowEnd ⟨"24_hour_2025-01-02", 86400, "all"⟩ 1735776000) :=
  ⟨by decide,
   (frame_window_inclusion ["snapshots/2025-01/02/00/2025-01-02-00-00-00.jpg"]
      ⟨"24_hour_2025-01-02", 86400, "all"⟩ 1735776000
      "snapshots/2025-01/02/00/2025-01-02-00-00-00.jpg" 1735776000 (by decide)).1⟩

theorem traceOk_nil : traceOk [] := by
  intro l1 g l2 h
  exact absurd h (by simp)

theorem traceOk_cons (e : AssembleEv) (evs : List AssembleEv)
    (he : ∀ g, e ≠ .sidecarWrite g) (h : traceOk evs) : traceOk (e :: evs) := by
  intro l1 g l2 heq
  cases l1 with
  | nil =>
    simp only [List.nil_append, List.cons.injEq] at heq
    exact absurd heq.1 (he g)
  | cons x l1' =>
    simp only [List.cons_append, List.cons.injEq] at heq
    exact List.mem_cons_of_mem x (h l1' g l2 heq.2)

theorem traceOk_rename_sidecar (f : String) (evs : List AssembleEv) (h : traceOk evs) :
    traceOk (.renameConcat f :: .sidecarWrite f :: evs) := by
  intro l1 g l2 heq
  cases l1 with
  | nil =>
    simp only [List.nil_append, List.cons.injEq] at heq
    exact absurd heq.1 (by simp)
  | cons x l1' =>
    simp only [List.cons_append, List.cons.injEq] at heq
    cases l1' with
    | nil =>
      simp only [List.nil_append, List.cons.injEq] at heq
      obtain ⟨h1, h2, _⟩ := heq
      injection h2 with hfg
      subst hfg
      rw [← h1]
      exact List.mem_cons_self _ _
    | cons y l1'' =>
      simp only [List.cons_append, List.cons.injEq] at heq
      exact List.mem_cons_of_mem x (List.mem_cons_of_mem y (h l1'' g l2 heq.2.2))

theorem foldl_sidecar_allOk (o : AssembleOracle) :
    ∀ (l : List String) (d : Option String), (∀ g ∈ l, o.frame g = .allOk) →
      l.foldl (fun s f => if o.frame f = FrameOutcome.allOk then some f else s) d =
        lastTracked l d := by
  intro l
  induction l with
  | nil => intro d _; rfl
  | cons f rest ih =>
    intro d hall
    have hf : o.frame f = .allOk := hall f (List.mem_cons_self f rest)
    simp only [List.foldl_cons, hf, if_pos, lastTracked]
    exact ih (some f) (fun g hg => hall g (List.mem_cons_of_mem f hg))

theorem recentFiles_wf (allFiles : List String) (cfg : TimelapseConfig) (targetTime : Int) :
    ∀ f ∈ recentFiles allFiles cfg targetTime, 13 ≤ strLen (goBase f) := by
  intro f hf
  unfold recentFiles at hf
  have hmem := (List.mem_filter.mp hf).2
  cases hx : snapshotTimeOfName f with
  | none => rw [hx] at hmem; simp at hmem
  | some t => exact base_len_of_parse f t hx

/-- C5: with a hourly-stride spec, on a chronologically sorted
duplicate-free frame list the selector output retains exactly the frames
that are chronologically first among the windowed frames sharing their
13-byte YYYY-MM-DD-HH base-name key (the first frame of each distinct
hour); the pass is a pure function of its input, hence byte-identical
across runs, and a windowed list of exactly one well-formed frame passes
the stride unchanged. -/
theorem first_of_hour_stride (allFiles : List String) (cfg : TimelapseConfig)
    (targetTime : Int)
    (hp : cfg.framePattern = "hourly")
    (hnd : allFiles.Nodup)
    (hsortP : allFiles.Pairwise (fun a b => lexLe a.data b.data = true))
    (hsortN : allFiles.Pairwise (fun a b => lexLe (goBase a).data (goBase b).data = true)) :
    filterSnapshots allFiles cfg targetTime =
      (recentFiles allFiles cfg targetTime).filter
        (fun f => (recentFiles allFiles cfg targetTime).find?
            (fun g => hourKeyOf g == hourKeyOf f) == some f) ∧
    (∀ f t, snapshotTimeOfName f = some t → hourlyPass "" [f] = [f]) := by
  constructor
  · have hRsub : List.Sublist (recentFiles allFiles cfg targetTime) allFiles :=
      List.filter_sublist _
    have hRnd : (recentFiles allFiles cfg targetTime).Nodup := hnd.sublist hRsub
    have hRsortP : (recentFiles allFiles cfg targetTime).Pairwise
        (fun a b => lexLe a.data b.data = true) := hsortP.sublist hRsub
    have hRsortN : (recentFiles allFiles cfg targetTime).Pairwise
        (fun a b => lexLe (goBase a).data (goBase b).data = true) := hsortN.sublist hRsub
    have hRwf := recentFiles_wf allFiles cfg targetTime
    have hRkeys : (recentFiles allFiles cfg targetTime).Pairwise
        (fun a b => lexLe (hourKeyOf a).data (hourKeyOf b).data = true) := by
      refine hRsortN.imp ?_
      intro a b h
      rw [hourKeyOf_data, hourKeyOf_data]
      exact lexLe_take 13 _ _ h
    unfold filterSnapshots
    rw [hp]
    rw [if_neg (by decide : ¬("hourly" : String) = "all")]
    rw [if_pos rfl]
    have h1 : hourlyPass "" (recentFiles allFiles cfg targetTime) =
        keyFirstOfRuns hourKeyOf (recentFiles allFiles cfg targetTime) := by
      rw [hourlyPass_eq _ "" hRwf]
      congr 1
      refine dropWhile_eq_self_of_all _ ?_
      intro x hx
      simp only [beq_eq_false_iff_ne, ne_eq]
      exact hourKeyOf_ne_empty x (hRwf x hx)
    have h2 := keyFirstOfRuns_eq_filter (recentFiles allFiles cfg targetTime).length
      (recentFiles allFiles cfg targetTime) le_rfl hRnd hRkeys
    rw [h1, h2]
    unfold goSortStrings
    exact List.Sorted.insertionSort_eq (hRsortP.sublist (List.filter_sublist _))
  · intro f t ht
    have hlen := base_len_of_parse f t ht
    rw [hourlyPass, if_pos hlen]
    show (if strTake (goBase f) 13 ≠ "" then
        f :: hourlyPass (strTake (goBase f) 13) [] else hourlyPass "" []) = [f]
    rw [if_pos (show strTake (goBase f) 13 ≠ "" from hourKeyOf_ne_empty f hlen)]
    rfl

/-- C5 witness: two frames in one hour and one in the next, already
chronological. -/
theorem first_of_hour_stride_witness :
    ((⟨"1_week", 7 * 86400, "hourly"⟩ : TimelapseConfig).framePattern = "hourly" ∧
      (["snapshots/2025-01/02/03/2025-01-02-03-00-00.jpg",
        "snapshots/2025-01/02/03/2025-01-02-03-30-00.jpg",
        "snapshots/2025-01/02/04/2025-01-02-04-00-00.jpg"] : List String).Nodup) ∧
    filterSnapshots
        ["snapshots/2025-01/02/03/2025-01-02-03-00-00.jpg",
         "snapshots/2025-01/02/03/2025-01-02-03-30-00.jpg",
         "snapshots/2025-01/02/04/2025-01-02-04-00-00.jpg"]
        ⟨"1_week", 7 * 86400, "hourly"⟩ 1735786800 =
      (recentFiles
          ["snapshots/2025-01/02/03/2025-01-02-03-00-00.jpg",
           "snapshots/2025-01/02/03/2025-01-02-03-30-00.jpg",
           "snapshots/2025-01/02/04/2025-01-02-04-00-00.jpg"]
          ⟨"1_week", 7 * 86400, "hourly"⟩ 1735786800).filter
        (fun f =>
          (recentFiles
              ["snapshots/2025-01/02/03/2025-01-02-03-00-00.jpg",
               "snapshots/2025-01/02/03/2025-01-02-03-30-00.jpg",
               "snapshots/2025-01/02/04/2025-01-02-04-00-00.jpg"]
              ⟨"1_week", 7 * 86400, "hourly"⟩ 1735786800).find?
            (fun g => hourKeyOf g == hourKeyOf f) == some f) :=
  ⟨⟨rfl, by decide⟩,
   (first_of_hour_stride
      ["snapshots/2025-01/02/03/2025-01-02-03-00-00.jpg",
       "snapshots/2025-01/02/03/2025-01-02-03-30-00.jpg",
       "snapshots/2025-01/02/04/2025-01-02-04-00-00.jpg"]
      ⟨"1_week", 7 * 86400, "hourly"⟩ 1735786800 rfl (by decide) (by decide) (by decide)).1⟩

theorem splitSlash_no_slash : ∀ l : List Char, '/' ∉ l → splitSlash l = [l] := by
  intro l
  induction l with
  | nil => intro _; rfl
  | cons c rest ih =>
    intro h
    have hc : ¬(c = '/') := fun he => h (he ▸ List.mem_cons_self c rest)
    have hr := ih (fun hm => h (List.mem_cons_of_mem c hm))
    rw [splitSlash, if_neg hc, hr]

theorem splitSlash_append :
    ∀ l1 l2 : List Char, '/' ∉ l1 → splitSlash (l1 ++ '/' :: l2) = l1 :: splitSlash l2 := by
  intro l1
  induction l1 with
  | nil =>
    intro l2 _
    rw [List.nil_append, splitSlash, if_pos rfl]
  | cons c l1' ih =>
    intro l2 h
    have hc : ¬(c = '/') := fun he => h (he ▸ List.mem_cons_self _ _)
    have hr := ih l2 (fun hm => h (List.mem_cons_of_mem c hm))
    rw [List.cons_append, splitSlash, if_neg hc, hr]

theorem intercalateSlash_cons_cons (c d : List Char) (cs : List (List Char)) :
    intercalateSlash (c :: d :: cs) = c ++ '/' :: intercalateSlash (d :: cs) := rfl

theorem intercalateSlash_snoc :
    ∀ (D : List (List Char)) (b : List Char), D ≠ [] →
      intercalateSlash (D ++ [b]) = intercalateSlash D ++ '/' :: b := by
  intro D
  induction D with
  | nil => intro b h; exact absurd rfl h
  | cons c D' ih =>
    intro b _
    cases D' with
    | nil => rfl
    | cons d D'' =>
      have ihb := ih b (by simp)
      calc intercalateSlash ((c :: d :: D'') ++ [b])
          = c ++ '/' :: intercalateSlash ((d :: D'') ++ [b]) := rfl
        _ = c ++ '/' :: (intercalateSlash (d :: D'') ++ '/' :: b) := by rw [ihb]
        _ = intercalateSlash (c :: d :: D'') ++ '/' :: b := by
            rw [intercalateSlash_cons_cons]
            simp [List.append_assoc]

theorem splitSlash_inter :
    ∀ D : List (List Char), D ≠ [] → (∀ c ∈ D, '/' ∉ c) →
      splitSlash (intercalateSlash D) = D := by
  intro D
  induction D with
  | nil => intro h; exact absurd rfl h
  | cons c D' ih =>
    intro _ hall
    cases D' with
    | nil => exact splitSlash_no_slash c (hall c (List.mem_cons_self _ _))
    | cons d D'' =>
      rw [intercalateSlash_cons_cons]
      rw [splitSlash_append c _ (hall c (List.mem_cons_self _ _))]
      rw [ih (by simp) (fun x hx => hall x (List.mem_cons_of_mem c hx))]

theorem splitSlash_inter_append :
    ∀ (D : List (List Char)) (t : List Char), D ≠ [] → (∀ c ∈ D, '/' ∉ c) →
      splitSlash (intercalateSlash D ++ '/' :: t) = D ++ splitSlash t := by
  intro D
  induction D with
  | nil => intro t h; exact absurd rfl h
  | cons c D' ih =>
    intro t _ hall
    cases D' with
    | nil =>
      rw [show intercalateSlash [c] = c from rfl]
      rw [splitSlash_append c t (hall c (List.mem_cons_self _ _))]
      rfl
    | cons d D'' =>
      rw [intercalateSlash_cons_cons]
      rw [show (c ++ '/' :: intercalateSlash (d :: D'')) ++ '/' :: t =
          c ++ '/' :: (intercalateSlash (d :: D'') ++ '/' :: t) from by
        simp [List.append_assoc]]
      rw [splitSlash_append c _ (hall c (List.mem_cons_self _ _))]
      rw [ih t (by simp) (fun x hx => hall x (List.mem_cons_of_mem c hx))]
      rfl

theorem cleanStack_nil (r : Bool) (stack : List (List Char)) :
    cleanStack r stack [] = stack.reverse := rfl

theorem cleanStack_cons_normal (r : Bool) (stack : List (List Char)) (c : List Char)
    (cs : List (List Char)) (hc : normalComp c) :
    cleanStack r stack (c :: cs) = cleanStack r (c :: stack) cs := by
  obtain ⟨h1, _, h3, h4⟩ := hc
  rw [cleanStack, if_neg (not_or.mpr ⟨h1, h3⟩), if_neg h4]

theorem cleanStack_cons_skip (r : Bool) (stack : List (List Char)) (c : List Char)
    (cs : List (List Char)) (hc : c = [] ∨ c = ['.']) :
    cleanStack r stack (c :: cs) = cleanStack r stack cs := by
  rw [cleanStack, if_pos hc]

theorem cleanStack_dotdot_root (cs : List (List Char)) :
    cleanStack true [] (['.', '.'] :: cs) = cleanStack true [] cs := by
  rw [cleanStack, if_neg (by decide), if_pos rfl]
  rfl

theorem cleanStack_dotdot_pop (r : Bool) (top : List Char) (rest cs : List (List Char))
    (htop : top ≠ ['.', '.']) :
    cleanStack r (top :: rest) (['.', '.'] :: cs) = cleanStack r rest cs := by
  rw [cleanStack, if_neg (by decide), if_pos rfl]
  rw [show dotdotStep r (top :: rest) = rest from by
    rw [dotdotStep, if_neg htop]]

theorem cleanStack_normal_go :
    ∀ (cs stack rest : List (List Char)) (r : Bool), (∀ c ∈ cs, normalComp c) →
      cleanStack r stack (cs ++ rest) = cleanStack r (cs.reverse ++ stack) rest := by
  intro cs
  induction cs with
  | nil => intro stack rest r _; rfl
  | cons c cs' ih =>
    intro stack rest r hall
    rw [List.cons_append, cleanStack_cons_normal r stack c _ (hall c (List.mem_cons_self _ _))]
    rw [ih (c :: stack) rest r (fun x hx => hall x (List.mem_cons_of_mem c hx))]
    congr 1
    simp [List.reverse_cons, List.append_assoc]

theorem foldl_pickOldest_isSome :
    ∀ (l : List JobRow) (b : JobRow), ∃ r, l.foldl pickOldest (some b) = some r := by
  intro l
  induction l with
  | nil => intro b; exact ⟨b, rfl⟩
  | cons x xs ih =>
    intro b
    rw [List.foldl_cons]
    by_cases h : x.createdAt < b.createdAt
    · simpa [pickOldest, h] using ih x
    · simpa [pickOldest, h] using ih b

theorem foldl_pickOldest_stay :
    ∀ (l : List JobRow) (b : JobRow), (∀ y ∈ l, ¬(y.createdAt < b.createdAt)) →
      l.foldl pickOldest (some b) = some b := by
  intro l
  induction l with
  | nil => intro b _; rfl
  | cons x xs ih =>
    intro b h
    rw [List.foldl_cons]
    rw [show pickOldest (some b) x = some b from by
      simp [pickOldest, h x (List.mem_cons_self x xs)]]
    exact ih b (fun y hy => h y (List.mem_cons_of_mem x hy))

theorem foldl_pickOldest_spec :
    ∀ (l : List JobRow) (b r : JobRow), l.foldl pickOldest (some b) = some r →
      (r = b ∨ r ∈ l) ∧ r.createdAt ≤ b.createdAt ∧
        ∀ x ∈ l, r.createdAt ≤ x.createdAt := by
  intro l
  induction l with
  | nil =>
    intro b r h
    simp only [List.foldl_nil, Option.some.injEq] at h
    subst h
    exact ⟨Or.inl rfl, le_refl _, by intro x hx; exact absurd hx (List.not_mem_nil x)⟩
  | cons x xs ih =>
    intro b r h
    rw [List.foldl_cons] at h
    by_cases hx : x.createdAt < b.createdAt
    · rw [show pickOldest (some b) x = some x from by simp [pickOldest, hx]] at h
      obtain ⟨hmem, hle, hall⟩ := ih x r h
      refine ⟨?_, le_trans hle (le_of_lt hx), ?_⟩
      · rcases hmem with he | hm
        · exact Or.inr (he ▸ List.mem_cons_self x xs)
        · exact Or.inr (List.mem_cons_of_mem x hm)
      · intro y hy
        rcases List.mem_cons.mp hy with he | hm
        · exact he ▸ hle
        · exact hall y hm
    · rw [show pickOldest (some b) x = some b from by simp [pickOldest, hx]] at h
      obtain ⟨hmem, hle, hall⟩ := ih b r h
      refine ⟨?_, hle, ?_⟩
      · rcases hmem with he | hm
        · exact Or.inl he
        · exact Or.inr (List.mem_cons_of_mem x hm)
      · intro y hy
        rcases List.mem_cons.mp hy with he | hm
        · exact he ▸ le_trans hle (not_lt.mp hx)
        · exact hall y hm

theorem getPendingJob_min (table : List JobRow) (j : JobRow)
    (h : getPendingJob table = some j) :
    j ∈ table ∧ j.status = "pending" ∧
      ∀ k ∈ table, k.status = "pending" → j.createdAt ≤ k.createdAt := by
  unfold getPendingJob at h
  cases hfp : table.filter (fun x => x.status == "pending") with
  | nil => rw [hfp] at h; simp at h
  | cons x xs =>
    rw [hfp, List.foldl_cons] at h
    have h' : xs.foldl pickOldest (some x) = some j := h
    obtain ⟨hmem, hle, hall⟩ := foldl_pickOldest_spec xs x j h'
    have hjf : j ∈ table.filter (fun x => x.status == "pending") := by
      rw [hfp]
      rcases hmem with he | hm
      · exact he ▸ List.mem_cons_self x xs
      · exact List.mem_cons_of_mem x hm
    have hj := List.mem_filter.mp hjf
    refine ⟨hj.1, by simpa using hj.2, ?_⟩
    intro k hk hkp
    have hkf : k ∈ table.filter (fun x => x.status == "pending") :=
      List.mem_filter.mpr ⟨hk, by simp [hkp]⟩
    rw [hfp] at hkf
    rcases List.mem_cons.mp hkf with he | hm
    · exact he ▸ hle
    · exact hall k hm

theorem filter_pending_eq_nil_of_none (table : List JobRow)
    (h : getPendingJob table = none) :
    table.filter (fun j => j.status == "pending") = [] := by
  unfold getPendingJob at h
  cases hfp : table.filter (fun x => x.status == "pending") with
  | nil => rfl
  | cons x xs =>
    rw [hfp, List.foldl_cons] at h
    obtain ⟨r, hr⟩ := foldl_pickOldest_isSome xs x
    have h' : xs.foldl pickOldest (some x) = none := h
    rw [hr] at h'
    exact absurd h' (by simp)

theorem getPendingJob_sorted (table : List JobRow)
    (hmono : table.Pairwise (fun a b => a.createdAt ≤ b.createdAt)) :
    getPendingJob table = (table.filter (fun j => j.status == "pending")).head? := by
  unfold getPendingJob
  have hp : (table.filter (fun j => j.status == "pending")).Pairwise
      (fun a b => a.createdAt ≤ b.createdAt) := hmono.sublist (List.filter_sublist _)
  cases hfp : table.filter (fun j => j.status == "pending") with
  | nil => rfl
  | cons x xs =>
    rw [List.foldl_cons]
    have hxs : ∀ y ∈ xs, ¬(y.createdAt < x.createdAt) := by
      intro y hy
      exact not_lt.mpr ((List.pairwise_cons.mp (hfp ▸ hp)).1 y hy)
    exact foldl_pickOldest_stay xs x hxs

theorem map_fix_of_ne (jid : Nat) (st : String) :
    ∀ l : List JobRow, (∀ x ∈ l, x.id ≠ jid) →
      l.map (fun x => if x.id == jid then { x with status := st } else x) = l := by
  intro l h
  induction l with
  | nil => rfl
  | cons x xs ih =>
    rw [List.map_cons]
    rw [show ((if x.id == jid then { x with status := st } else x) : JobRow) = x from by
      simp [h x (List.mem_cons_self x xs)]]
    rw [ih (fun y hy => h y (List.mem_cons_of_mem x hy))]

theorem jobRow_ids_split (t1 t2 : List JobRow) (j : JobRow)
    (hids : (((t1 ++ j :: t2)).map JobRow.id).Nodup) :
    (∀ x ∈ t1, x.id ≠ j.id) ∧ (∀ x ∈ t2, x.id ≠ j.id) := by
  rw [List.map_append, List.map_cons] at hids
  have hsplit := List.nodup_append.mp hids
  constructor
  · intro x hx he
    exact hsplit.2.2 (List.mem_map_of_mem JobRow.id hx) (he ▸ List.mem_cons_self _ _)
  · intro x hx he
    exact (List.nodup_cons.mp hsplit.2.1).1 (he ▸ List.mem_map_of_mem JobRow.id hx)

theorem workerStep_split (t1 t2 : List JobRow) (j : JobRow)
    (hids : (((t1 ++ j :: t2)).map JobRow.id).Nodup) :
    workerStep j (t1 ++ j :: t2) = t1 ++ t2 := by
  obtain ⟨h1, h2⟩ := jobRow_ids_split t1 t2 j hids
  have hupd : ∀ (st : String) (row : JobRow), row.id = j.id →
      updateJobStatus j.id st (t1 ++ row :: t2) = t1 ++ { row with status := st } :: t2 := by
    intro st row hrow
    unfold updateJobStatus
    rw [List.map_append, List.map_cons]
    rw [map_fix_of_ne j.id st t1 h1, map_fix_of_ne j.id st t2 h2]
    rw [show ((if row.id == j.id then { row with status := st } else row) : JobRow) =
        { row with status := st } from by simp [hrow]]
  unfold workerStep
  rw [hupd "running" j rfl, hupd "completed" { j with status := "running" } rfl]
  unfold deleteJob
  rw [List.filter_append, List.filter_cons]
  rw [show (!(({ j with status := "completed" } : JobRow).id == j.id)) = false from by simp]
  simp only [Bool.false_eq_true, if_false]
  rw [List.filter_eq_self.mpr (by intro x hx; simp [h1 x hx]),
    List.filter_eq_self.mpr (by intro x hx; simp [h2 x hx])]

theorem workerRunAux_eq :
    ∀ (n : Nat) (table : List JobRow), table.length ≤ n →
      ((table.map JobRow.id)).Nodup →
      table.Pairwise (fun a b => a.createdAt ≤ b.createdAt) →
      workerRunAux n table =
        (table.filter (fun j => j.status == "pending")).map JobRow.id := by
  intro n
  induction n with
  | zero =>
    intro table hlen _ _
    rw [List.length_eq_zero.mp (Nat.le_zero.mp hlen)]
    rfl
  | succ n ih =>
    intro table hlen hids hmono
    cases hg : getPendingJob table with
    | none =>
      rw [workerRunAux, hg, filter_pending_eq_nil_of_none table hg]
      rfl
    | some j =>
      have hhead := getPendingJob_sorted table hmono
      rw [hg] at hhead
      cases hfp : table.filter (fun x => x.status == "pending") with
      | nil => rw [hfp] at hhead; simp at hhead
      | cons x xs =>
        rw [hfp] at hhead
        have hx : x = j := by simpa using hhead.symm
        subst hx
        obtain ⟨t1, t2, hsplit, ht1, _, hxs⟩ := List.filter_eq_cons_iff.mp hfp
        have hsub : List.Sublist (t1 ++ t2) table := by
          rw [hsplit]
          exact List.Sublist.append_left (List.sublist_cons_self x t2) t1
        have hstep : workerStep x table = t1 ++ t2 := by
          rw [hsplit]
          exact workerStep_split t1 t2 x (hsplit ▸ hids)
        simp only [workerRunAux, hg]
        rw [hstep]
        have hlen2 : (t1 ++ t2).length ≤ n := by
          have := congrArg List.length hsplit
          rw [List.length_append, List.length_cons] at this
          rw [List.length_append]
          omega
        rw [ih (t1 ++ t2) hlen2 ((hsub.map JobRow.id).nodup hids) (hmono.sublist hsub)]
        rw [List.map_cons]
        congr 1
        rw [List.filter_append, List.filter_eq_nil_iff.mpr ht1, List.nil_append, hxs]

/-- C8: on a jobs table whose rowids are distinct and whose created_at
stamps are non-decreasing in rowid order (CURRENT_TIMESTAMP never runs
backwards), the worker drain dispatches exactly the pending rows in table
order, so a job enqueued before another pending job is dispatched before
it; and GetPendingJob always returns a pending row whose created_at is
minimal among pending rows. -/
theorem job_queue_fifo (table : List JobRow) (A B : JobRow)
    (hids : (table.map JobRow.id).Nodup)
    (hmono : table.Pairwise (fun a b => a.createdAt ≤ b.createdAt))
    (hAB : List.Sublist [A, B] table)
    (hA : A.status = "pending") (hB : B.status = "pending") :
    List.Sublist [A.id, B.id] (workerRun table) ∧
    (∀ j, getPendingJob table = some j →
      j ∈ table ∧ j.status = "pending" ∧
      ∀ k ∈ table, k.status = "pending" → j.createdAt ≤ k.createdAt) := by
  constructor
  · unfold workerRun
    rw [workerRunAux_eq table.length table le_rfl hids hmono]
    have hfAB : List.Sublist [A, B]
        (table.filter (fun j => j.status == "pending")) := by
      have := hAB.filter (fun j => j.status == "pending")
      rwa [show List.filter (fun j => j.status == "pending") [A, B] = [A, B] from by
        simp [List.filter, hA, hB]] at this
    simpa using hfAB.map JobRow.id
  · intro j hj
    exact getPendingJob_min table j hj

/-- C8 witness: a two-row table, both pending, enqueued at seconds 100
and 200. -/
theorem job_queue_fifo_witness :
    (((([⟨1, "generate_timelapse", 100, "pending"⟩,
         ⟨2, "cleanup_videos", 200, "pending"⟩] : List JobRow)).map JobRow.id).Nodup ∧
      (⟨1, "generate_timelapse", 100, "pending"⟩ : JobRow).status = "pending") ∧
    List.Sublist
      [(⟨1, "generate_timelapse", 100, "pending"⟩ : JobRow).id,
       (⟨2, "cleanup_videos", 200, "pending"⟩ : JobRow).id]
      (workerRun
        [⟨1, "generate_timelapse", 100, "pending"⟩,
         ⟨2, "cleanup_videos", 200, "pending"⟩]) :=
  ⟨⟨by decide, rfl⟩,
   (job_queue_fifo
      [⟨1, "generate_timelapse", 100, "pending"⟩, ⟨2, "cleanup_videos", 200, "pending"⟩]
      ⟨1, "generate_timelapse", 100, "pending"⟩ ⟨2, "cleanup_videos", 200, "pending"⟩
      (by decide) (by decide) (List.Sublist.refl _) rfl rfl).1⟩

/-- C1: during an incremental append over the new frames, some count j of
leading frames is fully persisted into the artifact; the sidecar equals
the fold of the successful sidecar writes over those persisted frames, so
it names either its old value or one of the persisted frames, and in the
write trace every sidecar write follows the rename that persisted its
frame; a failure is a segment, concat or rename failure at the first
unpersisted frame, and when all persisted frames proceeded cleanly a
failing run leaves the sidecar naming the previous tail. -/
theorem incremental_append_crash_safety (o : AssembleOracle) :
    ∀ (frames : List String) (st : AssemblerState) (A : List String), st.artifact = some A →
    ∃ j, j ≤ frames.length ∧
      (incrementalAppendLoop o st frames).1.artifact = some (A ++ frames.take j) ∧
      (incrementalAppendLoop o st frames).1.sidecar =
        (frames.take j).foldl
          (fun s f => if o.frame f = FrameOutcome.allOk then some f else s) st.sidecar ∧
      ((incrementalAppendLoop o st frames).1.sidecar = st.sidecar ∨
        ∃ f ∈ frames.take j, (incrementalAppendLoop o st frames).1.sidecar = some f) ∧
      traceOk (incrementalAppendLoop o st frames).2.1 ∧
      (∀ e, (incrementalAppendLoop o st frames).2.2 = .error e →
        ∃ g, frames[j]? = some g ∧
          (o.frame g = .segFail ∨ o.frame g = .concatFail ∨ o.frame g = .renameFail)) ∧
      (∀ e, (incrementalAppendLoop o st frames).2.2 = .error e →
        (∀ g ∈ frames.take j, o.frame g = .allOk) →
        (incrementalAppendLoop o st frames).1.sidecar =
          lastTracked (frames.take j) st.sidecar) := by
  intro frames
  induction frames with
  | nil =>
    intro st A hA
    refine ⟨0, by simp, by simpa [incrementalAppendLoop], by simp [incrementalAppendLoop],
      Or.inl rfl, by simpa [incrementalAppendLoop] using traceOk_nil, ?_, ?_⟩
    · intro e he
      simp [incrementalAppendLoop] at he
    · intro e he
      simp [incrementalAppendLoop] at he
  | cons f rest ih =>
    intro st A hA
    cases ho : o.frame f with
    | allOk =>
      have hstep : processFrame o st f =
          (⟨some f, some (A ++ [f])⟩,
           [.segWrite f, .concatWrite f, .removeSeg f, .renameConcat f, .sidecarWrite f],
           .ok ()) := by
        simp [processFrame, ho, hA]
      obtain ⟨j, hj, hart, hfold, hdis, htr, herr, hprev⟩ :=
        ih ⟨some f, some (A ++ [f])⟩ (A ++ [f]) rfl
      have hloop : incrementalAppendLoop o st (f :: rest) =
          ((incrementalAppendLoop o ⟨some f, some (A ++ [f])⟩ rest).1,
           [.segWrite f, .concatWrite f, .removeSeg f, .renameConcat f, .sidecarWrite f] ++
             (incrementalAppendLoop o ⟨some f, some (A ++ [f])⟩ rest).2.1,
           (incrementalAppendLoop o ⟨some f, some (A ++ [f])⟩ rest).2.2) := by
        simp [incrementalAppendLoop, hstep]
      refine ⟨j + 1, by simpa using Nat.succ_le_succ hj, ?_, ?_, ?_, ?_, ?_, ?_⟩
      · rw [hloop]
        simpa [List.append_assoc] using hart
      · rw [hloop]
        simpa [List.foldl_cons, ho] using hfold
      · rw [hloop]
        rcases hdis with h | ⟨f', hf', h⟩
        · exact Or.inr ⟨f, by simp, h⟩
        · exact Or.inr ⟨f', by simp [hf'], h⟩
      · rw [hloop]
        simp only [List.cons_append, List.nil_append]
        refine traceOk_cons _ _ (by intro g h; cases h) ?_
        refine traceOk_cons _ _ (by intro g h; cases h) ?_
        refine traceOk_cons _ _ (by intro g h; cases h) ?_
        exact traceOk_rename_sidecar f _ htr
      · rw [hloop]
        intro e he
        obtain ⟨g, hg, hout⟩ := herr e he
        exact ⟨g, by simpa using hg, hout⟩
      · rw [hloop]
        intro e he hall
        have := hprev e he (fun g hg => hall g (by simp [hg]))
        simpa [lastTracked, ho] using this
    | sidecarFail =>
      have hstep : processFrame o st f =
          ({ st with artifact := some (A ++ [f]) },
           [.segWrite f, .concatWrite f, .removeSeg f, .renameConcat f],
           .ok ()) := by
        simp [processFrame, ho, hA]
      obtain ⟨j, hj, hart, hfold, hdis, htr, herr, hprev⟩ :=
        ih { st with artifact := some (A ++ [f]) } (A ++ [f]) rfl
      have hloop : incrementalAppendLoop o st (f :: rest) =
          ((incrementalAppendLoop o { st with artifact := some (A ++ [f]) } rest).1,
           [.segWrite f, .concatWrite f, .removeSeg f, .renameConcat f] ++
             (incrementalAppendLoop o { st with artifact := some (A ++ [f]) } rest).2.1,
           (incrementalAppendLoop o { st with artifact := some (A ++ [f]) } rest).2.2) := by
        simp [incrementalAppendLoop, hstep]
      refine ⟨j + 1, by simpa using Nat.succ_le_succ hj, ?_, ?_, ?_, ?_, ?_, ?_⟩
      · rw [hloop]
        simpa [List.append_assoc] using hart
      · rw [hloop]
        simpa [List.foldl_cons, ho] using hfold
      · rw [hloop]
        rcases hdis with h | ⟨f', hf', h⟩
        · exact Or.inl h
        · exact Or.inr ⟨f', by simp [hf'], h⟩
      · rw [hloop]
        simp only [List.cons_append, List.nil_append]
        refine traceOk_cons _ _ (by intro g h; cases h) ?_
        refine traceOk_cons _ _ (by intro g h; cases h) ?_
        refine traceOk_cons _ _ (by intro g h; cases h) ?_
        refine traceOk_cons _ _ (by intro g h; cases h) ?_
        exact htr
      · rw [hloop]
        intro e he
        obtain ⟨g, hg, hout⟩ := herr e he
        exact ⟨g, by simpa using hg, hout⟩
      · intro e he hall
        have hf := hall f (by simp)
        rw [hf] at ho
        cases ho
    | segFail =>
      have hloop : incrementalAppendLoop o st (f :: rest) =
          (st, [], .error "error creating segment") := by
        simp [incrementalAppendLoop, processFrame, ho]
      refine ⟨0, by simp, by simpa [hloop], by simp [hloop], Or.inl (by simp [hloop]),
        by simpa [hloop] using traceOk_nil, ?_, ?_⟩
      · intro e _
        exact ⟨f, by simp, Or.inl ho⟩
      · intro e _ _
        simp [hloop, lastTracked]
    | concatFail =>
      have hloop : incrementalAppendLoop o st (f :: rest) =
          (st, [.segWrite f, .removeSeg f], .error "error concatenating") := by
        simp [incrementalAppendLoop, processFrame, ho]
      refine ⟨0, by simp, by simpa [hloop], by simp [hloop], Or.inl (by simp [hloop]), ?_, ?_, ?_⟩
      · rw [hloop]
        refine traceOk_cons _ _ (by intro g h; cases h) ?_
        exact traceOk_cons _ _ (by intro g h; cases h) traceOk_nil
      · intro e _
        exact ⟨f, by simp, Or.inr (Or.inl ho)⟩
      · intro e _ _
        simp [hloop, lastTracked]
    | renameFail =>
      have hloop : incrementalAppendLoop o st (f :: rest) =
          (st, [.segWrite f, .concatWrite f, .removeSeg f], .error "error renaming new video") := by
        simp [incrementalAppendLoop, processFrame, ho]
      refine ⟨0, by simp, by simpa [hloop], by simp [hloop], Or.inl (by simp [hloop]), ?_, ?_, ?_⟩
      · rw [hloop]
        refine traceOk_cons _ _ (by intro g h; cases h) ?_
        refine traceOk_cons _ _ (by intro g h; cases h) ?_
        exact traceOk_cons _ _ (by intro g h; cases h) traceOk_nil
      · intro e _
        exact ⟨f, by simp, Or.inr (Or.inr ho)⟩
      · intro e _ _
        simp [hloop, lastTracked]

/-- C1 witness: a two-frame append whose second frame fails at the rename
step, run from an artifact holding one frame. -/
theorem incremental_append_crash_safety_witness :
    ((⟨some "x", some ["x"]⟩ : AssemblerState).artifact = some ["x"]) ∧
    (∃ j, j ≤ (["y", "z"] : List String).length ∧
      (incrementalAppendLoop ⟨fun f => if f = "z" then .renameFail else .allOk, true, true⟩
        ⟨some "x", some ["x"]⟩ ["y", "z"]).1.artifact =
          some (["x"] ++ (["y", "z"] : List String).take j) ∧
      (incrementalAppendLoop ⟨fun f => if f = "z" then .renameFail else .allOk, true, true⟩
        ⟨some "x", some ["x"]⟩ ["y", "z"]).1.sidecar =
        ((["y", "z"] : List String).take j).foldl
          (fun s f =>
            if (if f = "z" then FrameOutcome.renameFail else FrameOutcome.allOk) =
                FrameOutcome.allOk then some f else s) (some "x") ∧
      ((incrementalAppendLoop ⟨fun f => if f = "z" then .renameFail else .allOk, true, true⟩
          ⟨some "x", some ["x"]⟩ ["y", "z"]).1.sidecar = some "x" ∨
        ∃ f ∈ (["y", "z"] : List String).take j,
          (incrementalAppendLoop ⟨fun f => if f = "z" then .renameFail else .allOk, true, true⟩
            ⟨some "x", some ["x"]⟩ ["y", "z"]).1.sidecar = some f) ∧
      traceOk (incrementalAppendLoop ⟨fun f => if f = "z" then .renameFail else .allOk, true, true⟩
        ⟨some "x", some ["x"]⟩ ["y", "z"]).2.1 ∧
      (∀ e, (incrementalAppendLoop ⟨fun f => if f = "z" then .renameFail else .allOk, true, true⟩
          ⟨some "x", some ["x"]⟩ ["y", "z"]).2.2 = .error e →
        ∃ g, (["y", "z"] : List String)[j]? = some g ∧
          ((if g = "z" then FrameOutcome.renameFail else FrameOutcome.allOk) = .segFail ∨
           (if g = "z" then FrameOutcome.renameFail else FrameOutcome.allOk) = .concatFail ∨
           (if g = "z" then FrameOutcome.renameFail else FrameOutcome.allOk) = .renameFail)) ∧
      (∀ e, (incrementalAppendLoop ⟨fun f => if f = "z" then .renameFail else .allOk, true, true⟩
          ⟨some "x", some ["x"]⟩ ["y", "z"]).2.2 = .error e →
        (∀ g ∈ (["y", "z"] : List String).take j,
          (if g = "z" then FrameOutcome.renameFail else FrameOutcome.allOk) =
            FrameOutcome.allOk) →
        (incrementalAppendLoop ⟨fun f => if f = "z" then .renameFail else .allOk, true, true⟩
          ⟨some "x", some ["x"]⟩ ["y", "z"]).1.sidecar =
          lastTracked ((["y", "z"] : List String).take j) (some "x"))) :=
  ⟨rfl, incremental_append_crash_safety
    ⟨fun f => if f = "z" then .renameFail else .allOk, true, true⟩
    ["y", "z"] ⟨some "x", some ["x"]⟩ ["x"] rfl⟩

theorem decideMode_spec (st' : AssemblerState) (F' : List String) :
    (decideMode st' F' = .full ↔
      (artifactOnDisk st' = false ∨ artifactIsEmptyFile st' = true ∨
        computeStartIndex (st'.sidecar.getD "") F' = 0)) ∧
    (decideMode st' F' = .incremental ↔
      (artifactOnDisk st' = true ∧ artifactIsEmptyFile st' = false ∧
        0 < computeStartIndex (st'.sidecar.getD "") F' ∧
        computeStartIndex (st'.sidecar.getD "") F' < F'.length)) ∧
    (decideMode st' F' = .noop ↔
      (artifactOnDisk st' = true ∧ artifactIsEmptyFile st' = false ∧
        0 < computeStartIndex (st'.sidecar.getD "") F' ∧
        F'.length ≤ computeStartIndex (st'.sidecar.getD "") F')) := by
  unfold decideMode
  split_ifs with h1 h2
  · rcases h1 with h | h | h
    · refine ⟨by simp [h], by simp [h], by simp [h]⟩
    · refine ⟨by simp [h], by simp [h], by simp [h]⟩
    · refine ⟨by simp [h], by simp [h], by simp [h]⟩
  · push_neg at h1
    obtain ⟨ha, hb, hz⟩ := h1
    have ha' : artifactOnDisk st' = true := by
      cases hx : artifactOnDisk st'
      · exact absurd hx ha
      · rfl
    have hb' : artifactIsEmptyFile st' = false := by
      cases hx : artifactIsEmptyFile st'
      · rfl
      · exact absurd hx hb
    have hp : 0 < computeStartIndex (st'.sidecar.getD "") F' := Nat.pos_of_ne_zero hz
    refine ⟨by simp [ha', hb', hz], by simp [ha', hb', hp, h2], by simp [h2]⟩
  · push_neg at h1
    obtain ⟨ha, hb, hz⟩ := h1
    have ha' : artifactOnDisk st' = true := by
      cases hx : artifactOnDisk st'
      · exact absurd hx ha
      · rfl
    have hb' : artifactIsEmptyFile st' = false := by
      cases hx : artifactIsEmptyFile st'
      · rfl
      · exact absurd hx hb
    have hp : 0 < computeStartIndex (st'.sidecar.getD "") F' := Nat.pos_of_ne_zero hz
    refine ⟨by simp [ha', hb', hz], by simp [h2], by simp [ha', hb', hp, Nat.le_of_not_lt h2]⟩

/-- C2 counterexample: with the artifact file missing, the selected list
F = [a, b] and the sidecar naming a, startIndex is 1, strictly between 0
and len(F), yet the assembler performs a full regeneration (manifest plus
encode plus rename, and the final artifact holds all of F), not an
incremental append -- so the claim's biconditional for the incremental
mode is false as stated. -/
theorem assembler_mode_claim_counterexample :
    0 < computeStartIndex "a" ["a", "b"] ∧
    computeStartIndex "a" ["a", "b"] < 2 ∧
    decideMode ⟨some "a", none⟩ ["a", "b"] ≠ .incremental ∧
    decideMode ⟨some "a", none⟩ ["a", "b"] = .full ∧
    assembleCore allOkOracle ⟨some "a", none⟩ ["a", "b"] =
      (⟨some "b", some ["a", "b"]⟩,
       [.writeListFile, .encodeTemp, .renameTemp, .sidecarWrite "b"], .ok ()) := by
  refine ⟨?_, ?_, ?_, ?_, ?_⟩ <;> decide

/-- C2 (amended): for a non-empty selected list F, startIndex is 0 when
the sidecar is empty or names a path not in F and one past the first
position of the sidecar path otherwise; the mode is full regeneration iff
the artifact is missing or zero-byte or startIndex is 0, incremental
append of F[startIndex..] iff the artifact is present and non-empty and
startIndex is positive and below len(F), and otherwise nothing happens;
and an all-success run realizes the decided mode. -/
theorem assembler_mode_decision (st : AssemblerState) (F : List String) (hF : F ≠ []) :
    (((st.sidecar.getD "") = "" ∨ (st.sidecar.getD "") ∉ F) →
        computeStartIndex (st.sidecar.getD "") F = 0) ∧
    ((st.sidecar.getD "") ≠ "" → (st.sidecar.getD "") ∈ F →
        ∃ i, F[i]? = some (st.sidecar.getD "") ∧ (st.sidecar.getD "") ∉ F.take i ∧
          computeStartIndex (st.sidecar.getD "") F = i + 1) ∧
    (decideMode st F = .full ↔
        (artifactOnDisk st = false ∨ artifactIsEmptyFile st = true ∨
          computeStartIndex (st.sidecar.getD "") F = 0)) ∧
    (decideMode st F = .incremental ↔
        (artifactOnDisk st = true ∧ artifactIsEmptyFile st = false ∧
          0 < computeStartIndex (st.sidecar.getD "") F ∧
          computeStartIndex (st.sidecar.getD "") F < F.length)) ∧
    (decideMode st F = .noop ↔
        (artifactOnDisk st = true ∧ artifactIsEmptyFile st = false ∧
          0 < computeStartIndex (st.sidecar.getD "") F ∧
          F.length ≤ computeStartIndex (st.sidecar.getD "") F)) ∧
    (decideMode st F = .full → (assembleCore allOkOracle st F).1.artifact = some F) ∧
    (decideMode st F = .incremental →
        (assembleCore allOkOracle st F).1.artifact =
          some (st.artifact.getD [] ++ F.drop (computeStartIndex (st.sidecar.getD "") F))) ∧
    (decideMode st F = .noop → assembleCore allOkOracle st F = (st, [], .ok ())) := by
  have hFe : F.isEmpty = false := by simpa [List.isEmpty_iff] using hF
  refine ⟨?_, ?_, ?_, ?_, ?_, ?_, ?_, ?_⟩
  · exact computeStartIndex_of_empty_or_not_mem _ F
  · exact computeStartIndex_of_mem _ F
  · exact (decideMode_spec st F).1
  · exact (decideMode_spec st F).2.1
  · exact (decideMode_spec st F).2.2
  · intro hm
    unfold assembleCore
    rw [hFe]
    simp only [Bool.false_eq_true, if_false, hm]
    unfold regenerateFullTimelapse
    simp only [allOkOracle, if_true]
    match hL : F.getLast? with
    | some lastF => simp
    | none => simp
  · intro hm
    unfold assembleCore
    rw [hFe]
    simp only [Bool.false_eq_true, if_false, hm]
    have hsome : artifactOnDisk st = true := ((decideMode_spec st F).2.1.mp hm).1
    obtain ⟨A, hA⟩ := Option.isSome_iff_exists.mp hsome
    have := (appendLoop_allOk (F.drop (computeStartIndex (st.sidecar.getD "") F)) st A hA).1
    rw [this, hA]
    simp
  · intro hm
    unfold assembleCore
    rw [hFe]
    simp [hm]

/-- C2 witness: a state with a present, non-empty artifact and a sidecar
naming the first of two selected frames satisfies the hypotheses, and the
theorem applies. -/
theorem lastTracked_of_ne_nil :
    ∀ (fs : List String) (d : Option String), fs ≠ [] → lastTracked fs d = fs.getLast? := by
  intro fs
  induction fs with
  | nil => intro d h; exact absurd rfl h
  | cons f rest ih =>
    intro d _
    cases rest with
    | nil => rfl
    | cons g rest' =>
      have := ih (some f) (by simp)
      simp only [lastTracked] at this ⊢
      rw [this, List.getLast?_cons_cons]

theorem getLast?_drop_of_lt :
    ∀ (F : List String) (si : Nat), si < F.length → (F.drop si).getLast? = F.getLast? := by
  intro F
  induction F with
  | nil => intro si h; simp at h
  | cons f rest ih =>
    intro si h
    cases si with
    | zero => rfl
    | succ si' =>
      have h' : si' < rest.length := by simpa using h
      have hrest : rest ≠ [] := by
        intro he
        rw [he] at h'
        simp at h'
      rw [List.drop_succ_cons, ih si' h']
      cases rest with
      | nil => exact absurd rfl hrest
      | cons g rest' => rw [List.getLast?_cons_cons]

theorem startIndexScan_cons (tail s : String) (rest : List String) :
    startIndexScan tail (s :: rest) =
      if s == tail then some 1 else (startIndexScan tail rest).map (· + 1) := rfl

theorem mem_of_getLast?_eq_some :
    ∀ (F : List String) (l : String), F.getLast? = some l → l ∈ F := by
  intro F
  induction F with
  | nil => intro l h; simp at h
  | cons f rest ih =>
    intro l h
    cases rest with
    | nil =>
      simp only [List.getLast?_singleton, Option.some.injEq] at h
      simp [h]
    | cons g rest' =>
      rw [List.getLast?_cons_cons] at h
      exact List.mem_cons_of_mem f (ih l h)

theorem startIndexScan_getLast :
    ∀ (F : List String) (l : String), F.getLast? = some l → F.Nodup →
      startIndexScan l F = some F.length := by
  intro F
  induction F with
  | nil => intro l h; simp at h
  | cons f rest ih =>
    intro l h hnd
    cases rest with
    | nil =>
      simp only [List.getLast?_singleton, Option.some.injEq] at h
      simp [startIndexScan, h]
    | cons g rest' =>
      rw [List.getLast?_cons_cons] at h
      have hmem : l ∈ g :: rest' := mem_of_getLast?_eq_some _ l h
      have hne : ¬(f = l) := by
        intro he
        exact (List.nodup_cons.mp hnd).1 (he ▸ hmem)
      have hbe : (f == l) = false := by simp [hne]
      have hscan := ih l h (List.nodup_cons.mp hnd).2
      rw [startIndexScan_cons, hbe]
      simp only [Bool.false_eq_true, if_false, hscan, Option.map_some]
      simp

theorem computeStartIndex_getLast (F : List String) (l : String)
    (h : F.getLast? = some l) (hne : l ≠ "") (hnd : F.Nodup) :
    computeStartIndex l F = F.length := by
  simp [computeStartIndex, hne, startIndexScan_getLast F l h hnd]

/-- Helper: a state whose artifact is a present non-empty file and whose
sidecar names the last selected frame makes the assembler a no-op on the
same selection, for every oracle. -/
theorem assembleCore_noop_of_tail (o : AssembleOracle) (st1 : AssemblerState)
    (F : List String) (l : String) (A1 : List String)
    (hF : F ≠ []) (hnd : F.Nodup) (hl : F.getLast? = some l) (hlne : l ≠ "")
    (hsc : st1.sidecar = some l) (har : st1.artifact = some A1) (hA1 : A1 ≠ []) :
    assembleCore o st1 F = (st1, [], .ok ()) := by
  have hFe : F.isEmpty = false := by simpa [List.isEmpty_iff] using hF
  have hsi : computeStartIndex (st1.sidecar.getD "") F = F.length := by
    rw [hsc]
    exact computeStartIndex_getLast F l hl hlne hnd
  have hmode : decideMode st1 F = .noop := by
    have h1 : ¬(artifactOnDisk st1 = false ∨ artifactIsEmptyFile st1 = true ∨
        computeStartIndex (st1.sidecar.getD "") F = 0) := by
      intro h
      rcases h with h | h | h
      · rw [artifactOnDisk, har] at h
        simp at h
      · rw [artifactIsEmptyFile, har] at h
        simp only [List.isEmpty_eq_true] at h
        exact hA1 h
      · rw [hsi] at h
        exact hF (List.length_eq_zero.mp h)
    have h2 : ¬(computeStartIndex (st1.sidecar.getD "") F < F.length) := by
      rw [hsi]
      exact Nat.lt_irrefl _
    unfold decideMode
    rw [if_neg h1, if_neg h2]
  unfold assembleCore
  rw [hFe]
  simp [hmode]

/-- C7: with an empty selection the assembler returns success with no
writes at all; and after one all-success run over a fixed duplicate-free
selection, a second run over the same selection returns success with an
empty write trace and an unchanged state, under any oracle. -/
theorem assemble_twice_no_new_frames (st : AssemblerState) (F : List String)
    (o2 : AssembleOracle) :
    (F = [] → ∀ o1, assembleCore o1 st F = (st, [], .ok ())) ∧
    (F ≠ [] → F.Nodup → "" ∉ F →
      assembleCore o2 (assembleCore allOkOracle st F).1 F =
        ((assembleCore allOkOracle st F).1, [], .ok ())) := by
  constructor
  · intro hF o1
    have : F.isEmpty = true := by simp [hF]
    unfold assembleCore
    rw [this]
    simp
  · intro hF hnd hnb
    have hFe : F.isEmpty = false := by simpa [List.isEmpty_iff] using hF
    obtain ⟨l, hl⟩ : ∃ l, F.getLast? = some l := by
      cases hx : F.getLast? with
      | some l => exact ⟨l, rfl⟩
      | none => exact absurd (List.getLast?_eq_none_iff.mp hx) hF
    have hlne : l ≠ "" := by
      intro he
      exact hnb (he ▸ mem_of_getLast?_eq_some F l hl)
    cases hmode : decideMode st F with
    | full =>
      have hrun : (assembleCore allOkOracle st F).1 = ⟨some l, some F⟩ := by
        unfold assembleCore
        rw [hFe]
        simp only [Bool.false_eq_true, if_false, hmode]
        unfold regenerateFullTimelapse
        simp only [allOkOracle, if_true]
        rw [hl]
      rw [hrun]
      exact assembleCore_noop_of_tail o2 ⟨some l, some F⟩ F l F hF hnd hl hlne rfl rfl hF
    | incremental =>
      have hsome : artifactOnDisk st = true := ((decideMode_spec st F).2.1.mp hmode).1
      obtain ⟨A, hA⟩ := Option.isSome_iff_exists.mp hsome
      have hlt : computeStartIndex (st.sidecar.getD "") F < F.length :=
        ((decideMode_spec st F).2.1.mp hmode).2.2.2
      have hdropne : F.drop (computeStartIndex (st.sidecar.getD "") F) ≠ [] := by
        intro he
        have := List.drop_eq_nil_iff.mp he
        omega
      have hrun : (assembleCore allOkOracle st F).1 =
          ⟨some l, some (A ++ F.drop (computeStartIndex (st.sidecar.getD "") F))⟩ := by
        unfold assembleCore
        rw [hFe]
        simp only [Bool.false_eq_true, if_false, hmode]
        rw [(appendLoop_allOk (F.drop (computeStartIndex (st.sidecar.getD "") F)) st A hA).1]
        rw [lastTracked_of_ne_nil _ _ hdropne, getLast?_drop_of_lt F _ hlt, hl]
      rw [hrun]
      exact assembleCore_noop_of_tail o2 _ F l _ hF hnd hl hlne rfl rfl (by simp [hdropne])
    | noop =>
      have hrun : (assembleCore allOkOracle st F).1 = st := by
        unfold assembleCore
        rw [hFe]
        simp [hmode]
      rw [hrun]
      unfold assembleCore
      rw [hFe]
      simp [hmode]

/-- C7 witness: a concrete two-frame selection run twice. -/
theorem assemble_twice_no_new_frames_witness :
    ((["a", "b"] : List String) ≠ [] ∧ (["a", "b"] : List String).Nodup ∧
      "" ∉ (["a", "b"] : List String)) ∧
    assembleCore allOkOracle
        (assembleCore allOkOracle ⟨none, none⟩ ["a", "b"]).1 ["a", "b"] =
      ((assembleCore allOkOracle ⟨none, none⟩ ["a", "b"]).1, [], .ok ()) := by
  refine ⟨⟨by decide, by decide, by decide⟩, ?_⟩
  exact (assemble_twice_no_new_frames ⟨none, none⟩ ["a", "b"] allOkOracle).2
    (by decide) (by decide) (by decide)

theorem assembler_mode_decision_witness :
    (["a", "b"] : List String) ≠ [] ∧
    ((((⟨some "a", some ["a"]⟩ : AssemblerState).sidecar.getD "") = "" ∨
        ((⟨some "a", some ["a"]⟩ : AssemblerState).sidecar.getD "") ∉ (["a", "b"] : List String)) →
        computeStartIndex (((⟨some "a", some ["a"]⟩ : AssemblerState)).sidecar.getD "") ["a", "b"] = 0) ∧
    True := by
  exact ⟨by decide, (assembler_mode_decision ⟨some "a", some ["a"]⟩ ["a", "b"] (by decide)).1, trivial⟩

/-! ## Share-link path confinement (HandleShareLink / HandlePublicLink)

Both handlers canonicalize Join(DataDir, Base(path)) and compare the data
directory as a string prefix of the result.  The lemmas below evaluate
that canonicalization when the data directory is itself a clean rooted
path of ordinary components.
-/

theorem isPrefixOf_length_le :
    ∀ a b : List Char, a.isPrefixOf b = true → a.length ≤ b.length := by
  intro a
  induction a with
  | nil => intro b _; simp
  | cons x a' ih =>
    intro b h
    cases b with
    | nil => simp [List.isPrefixOf] at h
    | cons y b' =>
      simp only [List.isPrefixOf, Bool.and_eq_true] at h
      exact Nat.succ_le_succ (ih b' h.2)

theorem dropWhile_head_false {p : Char → Bool} :
    ∀ (l : List Char) (x : Char) (xs : List Char),
      l.dropWhile p = x :: xs → p x = false := by
  intro l
  induction l with
  | nil => intro x xs h; simp [List.dropWhile] at h
  | cons c l' ih =>
    intro x xs h
    rw [List.dropWhile_cons] at h
    cases hc : p c with
    | true =>
      rw [hc, if_pos rfl] at h
      exact ih x xs h
    | false =>
      rw [hc, if_neg (by decide)] at h
      injection h with h1 _
      rw [← h1]
      exact hc

theorem baseChars_all_slash (p : List Char) (hp : p ≠ [])
    (hq : dropTrailingSlashes p = []) : baseChars p = ['/'] := by
  simp [baseChars, hp, hq]

theorem baseChars_of_rest (p : List Char) (hp : p ≠ [])
    (hq : dropTrailingSlashes p ≠ []) :
    baseChars p =
      ((dropTrailingSlashes p).reverse.takeWhile (fun c => c ≠ '/')).reverse := by
  simp [baseChars, hp, hq]

theorem baseChars_spec (p : List Char) (hp : p ≠ []) :
    baseChars p = ['/'] ∨ (baseChars p ≠ [] ∧ '/' ∉ baseChars p) := by
  by_cases hq : dropTrailingSlashes p = []
  · exact Or.inl (baseChars_all_slash p hp hq)
  · right
    rw [baseChars_of_rest p hp hq]
    have hrr : (dropTrailingSlashes p).reverse =
        p.reverse.dropWhile (fun c => c = '/') := by
      simp [dropTrailingSlashes]
    rw [hrr]
    cases hL : p.reverse.dropWhile (fun c => c = '/') with
    | nil =>
      exact absurd (show dropTrailingSlashes p = [] from by
        simp [dropTrailingSlashes, hL]) hq
    | cons x xs =>
      have hx : x ≠ '/' := by
        have := dropWhile_head_false p.reverse x xs hL
        simpa using this
      rw [List.takeWhile_cons, if_pos (by simpa using hx)]
      constructor
      · simp
      · intro hmem
        rw [List.reverse_cons] at hmem
        rcases List.mem_append.mp hmem with h1 | h1
        · rw [List.mem_reverse] at h1
          have := List.mem_takeWhile_imp h1
          simp at this
        · exact hx (List.mem_singleton.mp h1).symm

theorem dropLast_eq_of_rev (D : List (List Char)) (top : List Char)
    (rest : List (List Char)) (h : D.reverse = top :: rest) :
    D.dropLast = rest.reverse ∧ D = rest.reverse ++ [top] := by
  have hD : D = rest.reverse ++ [top] := by
    have h2 := congrArg List.reverse h
    simpa using h2
  exact ⟨by rw [hD, List.dropLast_concat], hD⟩

theorem cleanStack_all_normal (D : List (List Char))
    (hall : ∀ c ∈ D, normalComp c) :
    cleanStack true [] D = D := by
  have h := cleanStack_normal_go D [] [] true hall
  rw [List.append_nil, List.append_nil] at h
  rw [h, cleanStack_nil, List.reverse_reverse]

theorem cleanStack_append_dot (D : List (List Char))
    (hall : ∀ c ∈ D, normalComp c) :
    cleanStack true [] (D ++ [['.']]) = D := by
  rw [cleanStack_normal_go D [] [['.']] true hall, List.append_nil]
  rw [cleanStack_cons_skip true D.reverse ['.'] [] (Or.inr rfl)]
  rw [cleanStack_nil, List.reverse_reverse]

theorem cleanStack_append_dotdot (D : List (List Char)) (hD : D ≠ [])
    (hall : ∀ c ∈ D, normalComp c) :
    cleanStack true [] (D ++ [['.', '.']]) = D.dropLast := by
  rw [cleanStack_normal_go D [] [['.', '.']] true hall, List.append_nil]
  cases hrev : D.reverse with
  | nil => exact absurd (by simpa using hrev) hD
  | cons top rest =>
    obtain ⟨hdrop, hD2⟩ := dropLast_eq_of_rev D top rest hrev
    have htop : normalComp top := hall top (by rw [hD2]; simp)
    rw [cleanStack_dotdot_pop true top rest [] htop.2.2.2, cleanStack_nil, hdrop]

theorem cleanStack_append_normal (D : List (List Char)) (b : List Char)
    (hall : ∀ c ∈ D, normalComp c) (hb : normalComp b) :
    cleanStack true [] (D ++ [b]) = D ++ [b] := by
  rw [cleanStack_normal_go D [] [b] true hall, List.append_nil]
  rw [cleanStack_cons_normal true D.reverse b [] hb]
  rw [cleanStack_nil, List.reverse_cons, List.reverse_reverse]

theorem cleanStack_append_two_empty (D : List (List Char))
    (hall : ∀ c ∈ D, normalComp c) :
    cleanStack true [] (D ++ [[], []]) = D := by
  rw [cleanStack_normal_go D [] [[], []] true hall, List.append_nil]
  rw [cleanStack_cons_skip true D.reverse [] [[]] (Or.inl rfl)]
  rw [cleanStack_cons_skip true D.reverse [] [] (Or.inl rfl)]
  rw [cleanStack_nil, List.reverse_reverse]

theorem renderRooted_ne_nil (E : List (List Char)) : renderRooted E ≠ [] := by
  simp [renderRooted]

theorem cleanChars_rooted_eq (l : List Char) :
    cleanChars ('/' :: l) =
      renderRooted (cleanStack true [] (splitSlash ('/' :: l))) := by
  unfold cleanChars
  rw [if_neg (by simp), if_pos (show ('/' :: l).head? = some '/' from rfl)]

theorem cleanChars_renderRooted_normal (E : List (List Char))
    (hall : ∀ c ∈ E, normalComp c) :
    cleanChars (renderRooted E) = renderRooted E := by
  cases E with
  | nil => decide
  | cons c E' =>
    show cleanChars ('/' :: intercalateSlash (c :: E')) = renderRooted (c :: E')
    rw [cleanChars_rooted_eq]
    have hsp : splitSlash ('/' :: intercalateSlash (c :: E')) = [] :: (c :: E') := by
      rw [splitSlash, if_pos rfl,
        splitSlash_inter (c :: E') (by simp) (fun x hx => (hall x hx).2.1)]
    rw [hsp, cleanStack_cons_skip true [] [] (c :: E') (Or.inl rfl),
      cleanStack_all_normal (c :: E') hall]

theorem joinChars_rooted (D : List (List Char)) (b : List Char)
    (hD : D ≠ []) (hslash : ∀ c ∈ D, '/' ∉ c) (hb : b ≠ []) (hbs : '/' ∉ b) :
    joinChars (renderRooted D) b = renderRooted (cleanStack true [] (D ++ [b])) := by
  unfold joinChars
  rw [if_neg (renderRooted_ne_nil D), if_neg hb]
  have h1 : renderRooted D ++ '/' :: b = '/' :: (intercalateSlash D ++ '/' :: b) := rfl
  rw [h1, cleanChars_rooted_eq]
  have hsp : splitSlash ('/' :: (intercalateSlash D ++ '/' :: b)) =
      [] :: (D ++ [b]) := by
    rw [splitSlash, if_pos rfl, splitSlash_inter_append D b hD hslash,
      splitSlash_no_slash b hbs]
  rw [hsp, cleanStack_cons_skip true [] [] (D ++ [b]) (Or.inl rfl)]

theorem joinChars_rooted_slash (D : List (List Char)) (hD : D ≠ [])
    (hslash : ∀ c ∈ D, '/' ∉ c) :
    joinChars (renderRooted D) ['/'] =
      renderRooted (cleanStack true [] (D ++ [[], []])) := by
  unfold joinChars
  rw [if_neg (renderRooted_ne_nil D), if_neg (by decide : (['/'] : List Char) ≠ [])]
  have h1 : renderRooted D ++ '/' :: ['/'] =
      '/' :: (intercalateSlash D ++ '/' :: ['/']) := rfl
  rw [h1, cleanChars_rooted_eq]
  have hsl : splitSlash ['/'] = [[], []] := by decide
  have hsp : splitSlash ('/' :: (intercalateSlash D ++ '/' :: ['/'])) =
      [] :: (D ++ [[], []]) := by
    rw [splitSlash, if_pos rfl, splitSlash_inter_append D ['/'] hD hslash, hsl]
  rw [hsp, cleanStack_cons_skip true [] [] (D ++ [[], []]) (Or.inl rfl)]

theorem absChars_rooted (cwd : List Char) (E : List (List Char))
    (hall : ∀ c ∈ E, normalComp c) :
    absChars cwd (renderRooted E) = renderRooted E := by
  unfold absChars
  rw [if_pos (show (renderRooted E).head? = some '/' from by simp [renderRooted])]
  exact cleanChars_renderRooted_normal E hall

theorem normalComp_length_pos (c : List Char) (hc : normalComp c) : 0 < c.length := by
  cases c with
  | nil => exact absurd rfl hc.1
  | cons x xs => simp

theorem intercalateSlash_dropLast_lt (D : List (List Char)) (hD : D ≠ [])
    (hall : ∀ c ∈ D, normalComp c) :
    (intercalateSlash D.dropLast).length < (intercalateSlash D).length := by
  cases hrev : D.reverse with
  | nil => exact absurd (by simpa using hrev) hD
  | cons top rest =>
    obtain ⟨hdrop, hD2⟩ := dropLast_eq_of_rev D top rest hrev
    have htop : normalComp top := hall top (by rw [hD2]; simp)
    have hl : 0 < top.length := normalComp_length_pos top htop
    rw [hdrop]
    rw [show intercalateSlash D = intercalateSlash (rest.reverse ++ [top]) from by
      rw [← hD2]]
    cases hre : rest.reverse with
    | nil => simpa [intercalateSlash] using hl
    | cons e E' =>
      rw [intercalateSlash_snoc (e :: E') top (by simp)]
      simp only [List.length_append, List.length_cons]
      omega

/-- The canonicalized basename join of HandlePublicLink, evaluated over a
data directory of ordinary components: a served path is the data directory
itself (basename slash or dot), or the data directory extended by the one
ordinary basename component; a dotdot basename escapes one level and is
refused by the prefix check. -/
theorem servedPath_cases (cwd : List Char) (D : List (List Char)) (stored q : List Char)
    (hD : D ≠ []) (hall : ∀ c ∈ D, normalComp c)
    (h : publicLinkServedPath cwd (renderRooted D) stored = some q) :
    q = renderRooted D ∨
      (normalComp (baseChars stored) ∧
        q = renderRooted D ++ '/' :: baseChars stored) := by
  have hslash : ∀ c ∈ D, '/' ∉ c := fun c hc => (hall c hc).2.1
  unfold publicLinkServedPath at h
  by_cases hst : stored = []
  · rw [if_pos hst] at h
    exact absurd h (by simp)
  · rw [if_neg hst] at h
    by_cases hpc : (renderRooted D).isPrefixOf
        (absChars cwd (joinChars (renderRooted D) (baseChars stored))) = true
    · rw [if_pos hpc] at h
      have hq : absChars cwd (joinChars (renderRooted D) (baseChars stored)) = q :=
        Option.some.inj h
      rcases baseChars_spec stored hst with hb | ⟨hbne, hbs⟩
      · left
        rw [← hq, hb, joinChars_rooted_slash D hD hslash,
          cleanStack_append_two_empty D hall, absChars_rooted cwd D hall]
      · by_cases hdot : baseChars stored = ['.']
        · left
          rw [← hq, hdot, joinChars_rooted D ['.'] hD hslash (by decide) (by decide),
            cleanStack_append_dot D hall, absChars_rooted cwd D hall]
        · by_cases hdd : baseChars stored = ['.', '.']
          · exfalso
            rw [hdd] at hpc
            rw [joinChars_rooted D ['.', '.'] hD hslash (by decide) (by decide),
              cleanStack_append_dotdot D hD hall,
              absChars_rooted cwd D.dropLast
                (fun c hc => hall c (List.dropLast_subset D hc))] at hpc
            have hlen := isPrefixOf_length_le _ _ hpc
            have hlt := intercalateSlash_dropLast_lt D hD hall
            simp only [renderRooted, List.length_cons] at hlen
            omega
          · right
            have hbn : normalComp (baseChars stored) := ⟨hbne, hbs, hdot, hdd⟩
            refine ⟨hbn, ?_⟩
            rw [← hq, joinChars_rooted D (baseChars stored) hD hslash hbne hbs,
              cleanStack_append_normal D (baseChars stored) hall hbn,
              absChars_rooted cwd (D ++ [baseChars stored]) (by
                intro c hc
                rcases List.mem_append.mp hc with h1 | h1
                · exact hall c h1
                · rw [List.mem_singleton.mp h1]
                  exact hbn)]
            show renderRooted (D ++ [baseChars stored]) =
              renderRooted D ++ '/' :: baseChars stored
            unfold renderRooted
            rw [intercalateSlash_snoc D (baseChars stored) hD]
            rfl
    · rw [if_neg hpc] at h
      exact absurd h (by simp)

/-- C9: for every working directory, every data directory that is a clean
rooted path of ordinary components, and every stored share path, a path
served by the public download endpoint canonicalizes inside the data
directory (it is the data directory or extends it below the separator);
a resolved path whose canonical form falls outside is refused, so nothing
outside the data directory is ever served. -/
theorem public_link_within_data_dir (cwd : List Char) (D : List (List Char))
    (stored q : List Char) (hD : D ≠ []) (hall : ∀ c ∈ D, normalComp c)
    (h : publicLinkServedPath cwd (renderRooted D) stored = some q) :
    isWithin (renderRooted D) q := by
  show q = renderRooted D ∨ ∃ s, q = renderRooted D ++ '/' :: s
  rcases servedPath_cases cwd D stored q hD hall h with h1 | ⟨_, h2⟩
  · exact Or.inl h1
  · exact Or.inr ⟨baseChars stored, h2⟩

/-- C9 witness: a stored path with a directory component resolves to a
concrete path inside the data directory /d/t. -/
theorem public_link_within_data_dir_witness :
    isWithin (renderRooted [['d'], ['t']])
      ['/', 'd', '/', 't', '/', 'v', '.', 'w'] :=
  public_link_within_data_dir ['/', 'w'] [['d'], ['t']]
    ['s', 'n', '/', 'v', '.', 'w'] ['/', 'd', '/', 't', '/', 'v', '.', 'w']
    (by decide) (by decide) (by decide)

/-- C10: both share handlers join only the basename of the supplied or
stored path onto the data directory, so every served path is the data
directory itself or the data directory extended by the single
separator-free basename component; it is never of the form
dataDir/sub/rest, so a file in a subdirectory can never be served; and
the share-creation traversal check accepts whenever the public endpoint
serves the same stored path. -/
theorem share_link_basename_confinement (cwd : List Char) (D : List (List Char))
    (stored q : List Char) (hD : D ≠ []) (hall : ∀ c ∈ D, normalComp c)
    (h : publicLinkServedPath cwd (renderRooted D) stored = some q) :
    (q = renderRooted D ∨
      ('/' ∉ baseChars stored ∧ q = renderRooted D ++ '/' :: baseChars stored)) ∧
    (∀ c1 c2 : List Char, q ≠ renderRooted D ++ '/' :: (c1 ++ '/' :: c2)) ∧
    shareLinkAllowed cwd (renderRooted D) stored = true := by
  have hmain := servedPath_cases cwd D stored q hD hall h
  have hshare : shareLinkAllowed cwd (renderRooted D) stored = true := by
    unfold publicLinkServedPath at h
    unfold shareLinkAllowed
    by_cases hst : stored = []
    · rw [if_pos hst] at h
      exact absurd h (by simp)
    · rw [if_neg hst] at h
      rw [if_neg hst]
      by_cases hpc : (renderRooted D).isPrefixOf
          (absChars cwd (joinChars (renderRooted D) (baseChars stored))) = true
      · exact hpc
      · rw [if_neg hpc] at h
        exact absurd h (by simp)
  refine ⟨?_, ?_, hshare⟩
  · rcases hmain with h1 | ⟨hbn, h2⟩
    · exact Or.inl h1
    · exact Or.inr ⟨hbn.2.1, h2⟩
  · intro c1 c2 hEq
    rcases hmain with h1 | ⟨hbn, h2⟩
    · rw [h1] at hEq
      have hlen := congrArg List.length hEq
      simp only [List.length_append, List.length_cons] at hlen
      omega
    · rw [h2] at hEq
      have hb : '/' :: baseChars stored = '/' :: (c1 ++ '/' :: c2) :=
        List.append_cancel_left hEq
      have hb2 : baseChars stored = c1 ++ '/' :: c2 := by
        injection hb
      exact hbn.2.1 (by
        rw [hb2]
        exact List.mem_append.mpr (Or.inr (List.mem_cons_self _ _)))

/-- C10 witness: a stored path under two directory levels is served as the
basename directly in the data directory /d/t, and the share-creation check
accepts it. -/
theorem share_link_basename_confinement_witness :
    ((['/', 'd', '/', 't', '/', 'c'] : List Char) = renderRooted [['d'], ['t']] ∨
      ('/' ∉ baseChars ['a', '/', 'b', '/', 'c'] ∧
        (['/', 'd', '/', 't', '/', 'c'] : List Char) =
          renderRooted [['d'], ['t']] ++ '/' :: baseChars ['a', '/', 'b', '/', 'c'])) ∧
    (∀ c1 c2 : List Char,
      (['/', 'd', '/', 't', '/', 'c'] : List Char) ≠
        renderRooted [['d'], ['t']] ++ '/' :: (c1 ++ '/' :: c2)) ∧
    shareLinkAllowed ['/', 'w'] (renderRooted [['d'], ['t']])
      ['a', '/', 'b', '/', 'c'] = true :=
  share_link_basename_confinement ['/', 'w'] [['d'], ['t']]
    ['a', '/', 'b', '/', 'c'] ['/', 'd', '/', 't', '/', 'c']
    (by decide) (by decide) (by decide)

end TimeMachine
